import Mathlib

/-!
# gateway-changelog: the aggregation pipeline of `main.go`

A shallow embedding of `processEntry`, `parseGithub`, `mapKeys`, `collect` and the
`dict` template helper of `main.go`, followed by theorems about them.

Conventions of the embedding
* Go slices are lists (`nil` and the empty slice are both `[]`, as `len` cannot tell
  them apart); Go `int` is `Int`; pointers to entries are the entries themselves, since
  no entry is written to after it is stored.
* A Go `map[string]V` is an association list with pairwise distinct keys, kept in order
  of first insertion; reading a missing key gives the zero value, as in Go.
* Calls that leave the process (directory listing, file reading, YAML decoding, the two
  GitHub lookups) and the iteration order of `range` over a map are parameters.
-/

namespace Changelog

/-! ## Go maps -/

/-- Go `m[k]` in the two-result form `v, found := m[k]`. -/
def mapGet {V : Type} : List (String × V) → String → Option V
  | [], _ => none
  | (k', v') :: rest, k => if k' = k then some v' else mapGet rest k

/-- Go `m[k] = v`. -/
def mapSet {V : Type} : List (String × V) → String → V → List (String × V)
  | [], k, v => [(k, v)]
  | (k', v') :: rest, k, v =>
    if k' = k then (k', v) :: rest else (k', v') :: mapSet rest k v

/-! ## Constants and types (main.go 20-56, 137-166) -/

def JiraBaseUrl : String := "https://konghq.atlassian.net/browse/"

/-- The map literal `ScopePriority` (main.go 25-34). -/
def ScopePriority : List (String × Int) :=
  [("Performance", 10), ("Configuration", 20), ("Core", 30), ("PDK", 40),
   ("Plugin", 50), ("Admin API", 60), ("Clustering", 70), ("Default", 100)]

/-- Go `ScopePriority[s]`: the zero value of `int` for a key that is not in the map. -/
def scopePriority (s : String) : Int := (mapGet ScopePriority s).getD 0

structure CommitCtx where
  SHA : String
  Message : String
  deriving DecidableEq, Repr

structure PullCtx where
  Number : Int
  Title : String
  Body : String
  deriving DecidableEq, Repr

structure CommitContext where
  Commit : CommitCtx
  PullCtx : PullCtx
  deriving DecidableEq, Repr

structure Jira where
  ID : String
  Link : String
  deriving DecidableEq, Repr

structure Github where
  Name : String
  Link : String
  deriving DecidableEq, Repr

structure ChangelogEntry where
  Message : String
  /-- The field `Type` of the source (a reserved word here). -/
  Type_ : String
  Scope : String
  Prs : List Int
  Githubs : List Int
  Jiras : List String
  /-- An exported field without a `yaml` tag: the decoder fills it from the key
  `parsedjiras` of the file, so an entry can reach `processEntry` with tickets in it. -/
  ParsedJiras : List Jira
  /-- An exported field without a `yaml` tag, filled from the key `parsedgithubs`. -/
  ParsedGithubs : List Github
  deriving DecidableEq, Repr

structure ScopeEntries where
  ScopeName : String
  Entries : List ChangelogEntry
  deriving DecidableEq, Repr

structure Data where
  System : String
  /-- The field `Type` of the source (a reserved word here). -/
  Type_ : List (String × List ScopeEntries)
  deriving DecidableEq, Repr

/-! ## Library functions used by the code -/

/-- Go `strings.HasSuffix`. -/
def hasSuffix (s suffix : String) : Bool := suffix.data.isSuffixOf s.data

/-- The verb `%d` of `fmt.Sprintf` on an `int`: decimal digits, `-` in front of a
negative number. -/
def fmtInt (n : Int) : String := toString n

/-- The class `[a-zA-Z]` of the ticket pattern. -/
def isLetter (c : Char) : Bool :=
  (decide ('a' ≤ c) && decide (c ≤ 'z')) || (decide ('A' ≤ c) && decide (c ≤ 'Z'))

/-- The class `\d` of the ticket pattern (ASCII digits in Go's regexp). -/
def isDigit (c : Char) : Bool := decide ('0' ≤ c) && decide (c ≤ '9')

/-- The match of `[a-zA-Z]+-\d+` that starts at the head of `s`, if there is one: both
repetitions are greedy, and since `-` is no letter and no digit the greedy choice is
the only way the letters can end. -/
def matchHere (s : List Char) : Option (List Char) :=
  let ls := s.takeWhile isLetter
  if ls = [] then none
  else
    match s.dropWhile isLetter with
    | '-' :: r =>
      let ds := r.takeWhile isDigit
      if ds = [] then none else some (ls ++ '-' :: ds)
    | _ => none

/-- Go `regexp.FindAllString(text, -1)` for the pattern `[a-zA-Z]+-\d+`: the leftmost
match is taken, the search resumes right after it. The first argument counts the
characters of the last match that are still to be stepped over. -/
def findAllFrom : Nat → List Char → List (List Char)
  | _, [] => []
  | n + 1, _ :: cs => findAllFrom n cs
  | 0, c :: cs =>
    match matchHere (c :: cs) with
    | some m => m :: findAllFrom (m.length - 1) cs
    | none => findAllFrom 0 cs

/-- The call `r.FindAllString(ctx.PullCtx.Body, -1)` of `processEntry`. -/
def findAllString (text : String) : List String :=
  (findAllFrom 0 text.data).map String.mk

/-! ## parseGithub and processEntry (main.go 168-221) -/

/-- The function `parseGithub` (main.go 168-178); `repo` is the global of that name. -/
def parseGithub (repo : String) (githubNos : List Int) : List Github :=
  githubNos.foldl
    (fun list no =>
      list ++ [{ Name := "#" ++ fmtInt no,
                 Link := "https://github.com/" ++ repo ++ "/issues/" ++ fmtInt no }])
    []

/-- The loop of main.go 195-200: the state is `entry.Jiras` and the keys of `jiraMap`
that hold `true`. -/
def dedupLoop (jiras : List String) (init : List String × List String) :
    List String × List String :=
  jiras.foldl
    (fun st jira =>
      if jira ∈ st.2 then st else (st.1 ++ [jira], jira :: st.2))
    init

/-- The block of main.go 191-201: the ticket list after the `// jiras` step. -/
def inferJiras (declared : List String) (body : String) : List String :=
  if declared.length = 0 then (dedupLoop (findAllString body) (declared, [])).1
  else declared

/-- The loop of main.go 202-208, appending to `entry.ParsedJiras`. -/
def resolveJiras (parsed : List Jira) (jiras : List String) : List Jira :=
  jiras.foldl (fun acc jiraId => acc ++ [{ ID := jiraId, Link := JiraBaseUrl ++ jiraId }])
    parsed

/-- The block of main.go 211-216: the issue list after the `// githubs` step. -/
def inferGithubs (githubs prs : List Int) (number : Int) : List Int :=
  let g1 := if githubs.length = 0 then prs else githubs
  if g1.length = 0 then g1 ++ [number] else g1

/-- The function `processEntry` (main.go 180-221). `fetch` stands for
`fetchCommitContext`, `repo` for the global read by `parseGithub`. The entry is
returned instead of being updated in place. -/
def processEntry (repo : String) (fetch : String → Except String CommitContext)
    (filename : String) (entry : ChangelogEntry) : Except String ChangelogEntry :=
  let entry1 := if entry.Scope = "" then { entry with Scope := "Default" } else entry
  match fetch filename with
  | .error err => .error ("faield to fetch commit ctx: " ++ err)
  | .ok ctx =>
    let jiras := inferJiras entry1.Jiras ctx.PullCtx.Body
    let entry2 := { entry1 with Jiras := jiras }
    let entry3 := { entry2 with ParsedJiras := resolveJiras entry2.ParsedJiras entry2.Jiras }
    let githubs := inferGithubs entry3.Githubs entry3.Prs ctx.PullCtx.Number
    let entry4 := { entry3 with Githubs := githubs }
    .ok { entry4 with ParsedGithubs := parseGithub repo entry4.Githubs }

/-! ## mapKeys and collect (main.go 223-297) -/

/-- Go `sort.Slice(keys, less)` as the insertion sort of package `sort`
(`for i := a+1; i < b; i++ { for j := i; j > a && less(j, j-1); j-- { swap } }`), which
is what the library runs on a slice of at most 12 elements. `sinkInto` moves the new
element `x` towards the front of the part already sorted, given nearest element first.
On a longer slice the library switches to a quicksort variant, whose result is again a
permutation in `less` order but may place elements that compare equal differently. -/
def sinkInto {α : Type} (less : α → α → Bool) (x : α) : List α → List α
  | [] => [x]
  | y :: ys => if less x y then y :: sinkInto less x ys else x :: y :: ys

/-- See `sinkInto`. -/
def sortSlice {α : Type} (less : α → α → Bool) (data : List α) : List α :=
  (data.foldl (fun done x => sinkInto less x done) []).reverse

/-- The function `isYAML` (main.go 58-60). -/
def isYAML (filename : String) : Bool :=
  hasSuffix filename ".yaml" || hasSuffix filename ".yml"

/-- The function `mapKeys` (main.go 223-229). `order` is the order in which `range`
visits the keys of the map: some permutation of them, not fixed by the language. -/
def mapKeys (order : List String → List String)
    (m : List (String × List ChangelogEntry)) : List String :=
  order (m.map Prod.fst)

/-- The comparison passed to `sort.Slice` (main.go 276-280). -/
def scopeLess (scopei scopej : String) : Bool :=
  decide (scopePriority scopei < scopePriority scopej)

/-- Lines 267-270 of `collect`: file the entry under its type and scope. -/
def addEntry (maps : List (String × List (String × List ChangelogEntry)))
    (entry : ChangelogEntry) : List (String × List (String × List ChangelogEntry)) :=
  let maps1 := if mapGet maps entry.Type_ = none then mapSet maps entry.Type_ [] else maps
  let inner := (mapGet maps1 entry.Type_).getD []
  mapSet maps1 entry.Type_
    (mapSet inner entry.Scope ((mapGet inner entry.Scope).getD [] ++ [entry]))

/-- Lines 275-289 of `collect`: the ScopeEntries list of one type. -/
def scopeList (order : List String → List String)
    (scopeEntries : List (String × List ChangelogEntry)) : List ScopeEntries :=
  let scopes := sortSlice scopeLess (mapKeys order scopeEntries)
  scopes.foldl
    (fun list scope =>
      list ++ [{ ScopeName := scope, Entries := (mapGet scopeEntries scope).getD [] }])
    []

/-- Lines 273-291 of `collect`: `data.Type`. Each type is written once, so the order in
which `range maps` visits the types does not show in the resulting map; `order t` is
the order in which the scopes of type `t` are visited. -/
def buildTypes (order : String → List String → List String)
    (maps : List (String × List (String × List ChangelogEntry))) :
    List (String × List ScopeEntries) :=
  maps.foldl (fun data ts => mapSet data ts.1 (scopeList (order ts.1) ts.2)) []

/-- An entry of the directory listing returned by `os.ReadDir`. -/
structure DirEntry where
  Name : String
  IsDir : Bool
  deriving DecidableEq, Repr

/-- What `collect` reads from outside the program. -/
structure Env where
  /-- The result of `os.ReadDir(path)`. -/
  readDir : Except String (List DirEntry)
  /-- The result of `os.ReadFile` on the named file of the directory. -/
  readFile : String → Except String String
  /-- The result of `yaml.Unmarshal(content, entry)` into a zero entry: any entry, the
  two resolved lists included, since every exported field is decoded. -/
  unmarshal : String → Except String ChangelogEntry
  /-- The result of `fetchCommitContext(filename)`. -/
  fetch : String → Except String CommitContext
  /-- The order in which `range` visits the scopes of a type. -/
  order : String → List String → List String
  /-- The global `system`. -/
  system : String
  /-- The global `repo`. -/
  repo : String

/-- The body of the loop over `files` (main.go 246-270). -/
def collectFile (env : Env) (maps : List (String × List (String × List ChangelogEntry)))
    (file : DirEntry) : Except String (List (String × List (String × List ChangelogEntry))) :=
  if file.IsDir || !isYAML file.Name then .ok maps
  else
    match env.readFile file.Name with
    | .error err => .error err
    | .ok content =>
      match env.unmarshal content with
      | .error err => .error ("failed to unmarshal YAML from " ++ file.Name ++ ": " ++ err)
      | .ok entry =>
        match processEntry env.repo env.fetch file.Name entry with
        | .error err => .error ("fialed to process entry: " ++ err)
        | .ok entry1 => .ok (addEntry maps entry1)

/-- The loop over `files` (main.go 245-271). -/
def collectLoop (env : Env) :
    List DirEntry → List (String × List (String × List ChangelogEntry)) →
      Except String (List (String × List (String × List ChangelogEntry)))
  | [], maps => .ok maps
  | file :: files, maps =>
    match collectFile env maps file with
    | .error err => .error err
    | .ok maps1 => collectLoop env files maps1

/-- The function `collect` (main.go 231-297). -/
def collect (env : Env) : Except String Data :=
  match env.readDir with
  | .error err => .error err
  | .ok files =>
    match collectLoop env files [] with
    | .error err => .error err
    | .ok maps => .ok { System := env.system, Type_ := buildTypes env.order maps }

/-! ## The template helper `dict` (main.go 302-336) -/

/-- A value of type `any` handed to `dict`. -/
inductive Value where
  | int (n : Int)
  | str (s : String)
  /-- A `[]string`. -/
  | strs (v : List String)
  /-- A `map[string]any`. -/
  | map (m : List (String × Value))
  /-- A value of any other dynamic type. -/
  | other (tag : Nat)

/-- The two ways `dict` can fail: the error it returns, or a run-time fault of the Go
program (index out of range, failed type assertion). -/
inductive Failure where
  | err (msg : String)
  | fault (msg : String)
  deriving DecidableEq, Repr

/-- The `[]string` case of `dict` (main.go 316-328) together with the assignment of
line 332: walk from `dict` along all but the last key, entering the map found under a
key or storing a new one, then set the last key. The maps are Go references, so the
write shows in every map on the way; here each of them is rebuilt. A map passed in
as a value is copied in with its content: this matches Go as long as the same map
object is not passed in twice. -/
def setPath : List (String × Value) → List String → Value →
    Except Failure (List (String × Value))
  | _, [], _ => .error (.fault "index out of range [-1]")
  | dict, [key], value => .ok (mapSet dict key value)
  | dict, key :: k2 :: rest, value =>
    match mapGet dict key with
    | some (.map m) =>
      match setPath m (k2 :: rest) value with
      | .ok m1 => .ok (mapSet dict key (.map m1))
      | .error e => .error e
    | some _ => .error (.fault "type assertion to map[string]any failed")
    | none =>
      match setPath [] (k2 :: rest) value with
      | .ok m1 => .ok (mapSet dict key (.map m1))
      | .error e => .error e

/-- One turn of the loop of `dict` (main.go 310-332). -/
def dictPair (root : List (String × Value)) (k value : Value) :
    Except Failure (List (String × Value)) :=
  match k with
  | .str key => .ok (mapSet root key value)
  | .strs v => setPath root v value
  | _ => .error (.err "invalid dictionary key")

/-- The loop of `dict` (main.go 309-333). A single value left over does not occur:
the length is even when the loop is entered. -/
def dictLoop : List Value → List (String × Value) → Except Failure (List (String × Value))
  | [], root => .ok root
  | [_], _ => .error (.fault "index out of range")
  | k :: value :: rest, root =>
    match dictPair root k value with
    | .ok root1 => dictLoop rest root1
    | .error e => .error e

/-- The helper `dict` (main.go 302-336). -/
def dict (values : List Value) : Except Failure (List (String × Value)) :=
  if values.length % 2 ≠ 0 then .error (.err "invalid dictionary call")
  else dictLoop values []

/-- The helper `arr` (main.go 301). -/
def arr (values : List Value) : List Value := values

/-! ## Definitions that follow the wording of the specification -/

/-- The specification's "deduplicate preserving first-seen order": every repeat after
the first occurrence is removed. -/
def removeRepeats : List String → List String
  | [] => []
  | x :: xs => x :: (removeRepeats xs).filter (fun y => decide (y ≠ x))

/-- The ResolvedTicket of a ticket ID: the fixed base URL followed by the ID. -/
def ticketOf (jiraId : String) : Jira := { ID := jiraId, Link := JiraBaseUrl ++ jiraId }

/-- The ResolvedIssue of an issue number: label `#<number>` and the issue link. -/
def issueOf (repo : String) (no : Int) : Github :=
  { Name := "#" ++ fmtInt no, Link := "https://github.com/" ++ repo ++ "/issues/" ++ fmtInt no }

/-- The words matched by the pattern `<letters>-<digits>`, that is `[a-zA-Z]+-\d+`:
one or more letters, a hyphen, one or more digits. -/
def IsTicket (w : List Char) : Prop :=
  ∃ ls ds, ls ≠ [] ∧ ds ≠ [] ∧ (∀ c ∈ ls, isLetter c = true) ∧
    (∀ c ∈ ds, isDigit c = true) ∧ w = ls ++ '-' :: ds

/-- The left-to-right sequence of non-overlapping matches in a text: `Matches s ms`
says that `ms` lists the matches of the pattern in `s`, where each match `m` is the
one that starts first in what is left of the text (every other occurrence `w` of the
pattern there starts later, or starts at the same place and is no longer) and the
search goes on in the text `r` that follows it. -/
inductive Matches : List Char → List (List Char) → Prop
  | done (s : List Char) : (∀ p w r, s = p ++ (w ++ r) → ¬ IsTicket w) → Matches s []
  | next (p m r : List Char) (ms : List (List Char)) :
      IsTicket m →
      (∀ p' w r', p ++ (m ++ r) = p' ++ (w ++ r') → IsTicket w →
        p.length < p'.length ∨ (p'.length = p.length ∧ w.length ≤ m.length)) →
      Matches r ms → Matches (p ++ (m ++ r)) (m :: ms)

/-- The enriched fragment that `collect` takes from one directory entry: none for a
directory or for a file that is no YAML file, otherwise the decoded entry after
`processEntry`; an error where `collect` stops with that error. -/
def enrichedOf (env : Env) (file : DirEntry) : Except String (Option ChangelogEntry) :=
  if file.IsDir || !isYAML file.Name then .ok none
  else
    match env.readFile file.Name with
    | .error err => .error err
    | .ok content =>
      match env.unmarshal content with
      | .error err => .error ("failed to unmarshal YAML from " ++ file.Name ++ ": " ++ err)
      | .ok entry =>
        match processEntry env.repo env.fetch file.Name entry with
        | .error err => .error ("fialed to process entry: " ++ err)
        | .ok entry1 => .ok (some entry1)

/-- The sequence of enriched fragments consumed by `collect`, in listing order. -/
def enrichedAll (env : Env) : List DirEntry → Except String (List ChangelogEntry)
  | [] => .ok []
  | file :: files =>
    match enrichedOf env file with
    | .error err => .error err
    | .ok none => enrichedAll env files
    | .ok (some entry) =>
      match enrichedAll env files with
      | .error err => .error err
      | .ok entries => .ok (entry :: entries)

/-- The state of `maps` after the fragments `entries` have been filed: keys are
distinct on both levels, a type is a key exactly when a fragment has it, a scope is a
key under a type exactly when a fragment has both, and the bucket of a type and a
scope holds the fragments that have both, in the order of `entries`. -/
structure Grouped (entries : List ChangelogEntry)
    (maps : List (String × List (String × List ChangelogEntry))) : Prop where
  keys_nodup : (maps.map Prod.fst).Nodup
  inner_nodup : ∀ c, (((mapGet maps c).getD []).map Prod.fst).Nodup
  key_iff : ∀ c, c ∈ maps.map Prod.fst ↔ ∃ e ∈ entries, e.Type_ = c
  inner_key_iff : ∀ c s, s ∈ ((mapGet maps c).getD []).map Prod.fst ↔
    ∃ e ∈ entries, e.Type_ = c ∧ e.Scope = s
  bucket : ∀ c s, (mapGet ((mapGet maps c).getD []) s).getD [] =
    entries.filter (fun e => decide (e.Type_ = c ∧ e.Scope = s))

/-- The path that a key of `dict` denotes: a string is a path of length one, a
sequence of strings is the path itself; other values are no keys. -/
def keyPath : Value → Option (List String)
  | .str key => some [key]
  | .strs v => some v
  | _ => none

/-- The value found by looking up a path through nested mappings: every key but the
last must lead to a mapping, the last key is looked up in the mapping reached. -/
def lookupPath : List (String × Value) → List String → Option Value
  | _, [] => none
  | m, [key] => mapGet m key
  | m, key :: k2 :: rest =>
    match mapGet m key with
    | some (.map sub) => lookupPath sub (k2 :: rest)
    | _ => none

/-- The flat argument list of `dict` that interleaves the given (key, value) pairs.
Every argument list of even length is of this form. -/
def interleave : List (Value × Value) → List Value
  | [] => []
  | kv :: rest => kv.1 :: kv.2 :: interleave rest

/-- The path `q` starts with the path `p` (`p` is a leading part of `q`, or equal). -/
def StartsWith (q p : List String) : Prop := ∃ r, q = p ++ r

/-- The state of the root mapping of `dict` after the pairs `done` (path, value) have
been stored: every stored path leads to its value, and whatever else can be reached
lies below a stored path or is a nested mapping on the way to one. -/
structure Stored (done : List (List String × Value)) (root : List (String × Value)) :
    Prop where
  found : ∀ pv ∈ done, lookupPath root pv.1 = some pv.2
  above : ∀ q x, lookupPath root q = some x →
    (∃ pv ∈ done, StartsWith q pv.1) ∨ ∃ sub, x = .map sub

/-! ## Auxiliary definitions for the proofs and sample inputs -/

/-- The value of a decimal digit character. -/
def digitVal (c : Char) : Nat := c.toNat - 48

/-- The number written by a list of decimal digits. -/
def decVal (l : List Char) : Nat := l.foldl (fun acc c => 10 * acc + digitVal c) 0

/-- A pull-request context whose body names the ticket `ABC-1` twice. -/
def sampleCtx : CommitContext :=
  { Commit := { SHA := "0a1b2c", Message := "fix(core): something" }
    PullCtx := { Number := 42, Title := "fix(core): something"
                 Body := "see ABC-1 and ABC-1 again, also XYZ-2" } }

/-- A lookup that succeeds with `sampleCtx`. -/
def sampleFetch : String → Except String CommitContext := fun _ => .ok sampleCtx

/-- A fragment that declares nothing but a message and a type. -/
def bareEntry : ChangelogEntry :=
  { Message := "something", Type_ := "bugfix", Scope := "", Prs := [], Githubs := [],
    Jiras := [], ParsedJiras := [], ParsedGithubs := [] }

/-- A fragment that declares the same ticket twice and the same issue twice. -/
def repeatingEntry : ChangelogEntry :=
  { Message := "something", Type_ := "bugfix", Scope := "Core", Prs := [], Githubs := [7, 7],
    Jiras := ["KAG-1", "KAG-1"], ParsedJiras := [], ParsedGithubs := [] }

/-- A fragment that declares the ticket `KAG-1` and whose file also sets `parsedjiras`
to a ticket `OLD-1`. -/
def staleEntry : ChangelogEntry :=
  { Message := "something", Type_ := "bugfix", Scope := "Core", Prs := [], Githubs := [7],
    Jiras := ["KAG-1"],
    ParsedJiras := [{ ID := "OLD-1", Link := "https://konghq.atlassian.net/browse/OLD-1" }],
    ParsedGithubs := [] }

/-- A fragment that declares the ticket `KAG-1` once and whose file also sets
`parsedjiras` to that ticket. -/
def resolvedEntry : ChangelogEntry :=
  { Message := "something", Type_ := "bugfix", Scope := "Core", Prs := [], Githubs := [7],
    Jiras := ["KAG-1"],
    ParsedJiras := [{ ID := "KAG-1", Link := "https://konghq.atlassian.net/browse/KAG-1" }],
    ParsedGithubs := [] }

/-- The scope that the sample decoder reads from a sample file. -/
def sampleScope (content : String) : String :=
  if content = "plugin.yml" then "Plugin"
  else if content = "core.yml" then "Core"
  else if content = "unknown.yml" then "Unknown"
  else if content = "perf.yaml" then "Performance"
  else if content = "other.yml" then "Other"
  else ""

/-- A sample run: every file reads as its own name and decodes to a fragment of type
`bugfix` without identifiers, every lookup gives `sampleCtx`. -/
def sampleEnv (files : List DirEntry) (order : String → List String → List String) : Env :=
  { readDir := .ok files
    readFile := fun name => .ok name
    unmarshal := fun content => .ok { bareEntry with Scope := sampleScope content }
    fetch := sampleFetch
    order := order
    system := "Kong"
    repo := "Kong/kong" }

/-- The listing of the ordering example: Plugin, Core, Unknown, Performance, next to a
directory and a file that is no YAML file. -/
def sampleFiles : List DirEntry :=
  [{ Name := "plugin.yml", IsDir := false }, { Name := "old", IsDir := true },
   { Name := "core.yml", IsDir := false }, { Name := "README.md", IsDir := false },
   { Name := "unknown.yml", IsDir := false }, { Name := "perf.yaml", IsDir := false }]

/-- A listing with two subsystems that are not in `ScopePriority`. -/
def tiedFiles : List DirEntry :=
  [{ Name := "unknown.yml", IsDir := false }, { Name := "other.yml", IsDir := false }]

/-- The sample fragment after `processEntry`, with the given scope. -/
def sampleEnriched (scope : String) : ChangelogEntry :=
  { Message := "something", Type_ := "bugfix", Scope := scope, Prs := [], Githubs := [42],
    Jiras := ["ABC-1", "XYZ-2"],
    ParsedJiras := [{ ID := "ABC-1", Link := "https://konghq.atlassian.net/browse/ABC-1" },
                    { ID := "XYZ-2", Link := "https://konghq.atlassian.net/browse/XYZ-2" }],
    ParsedGithubs := [{ Name := "#42", Link := "https://github.com/Kong/kong/issues/42" }] }

/-- The argument list of the example of `dict`: `["a","b"], 1, "c", 2` as pairs. -/
def samplePairs : List (Value × Value) :=
  [(.strs ["a", "b"], .int 1), (.str "c", .int 2)]

/-! ## Lists built by appending in a loop -/

theorem foldl_append_singleton {α β : Type} (f : α → β) (l : List α) (init : List β) :
    l.foldl (fun acc x => acc ++ [f x]) init = init ++ l.map f := by
  induction l generalizing init with
  | nil => simp
  | cons x xs ih => simp [ih]

theorem parseGithub_eq_map (repo : String) (l : List Int) :
    parseGithub repo l = l.map (issueOf repo) := by
  unfold parseGithub issueOf
  rw [foldl_append_singleton]
  simp

theorem resolveJiras_eq_map (parsed : List Jira) (l : List String) :
    resolveJiras parsed l = parsed ++ l.map ticketOf := by
  unfold resolveJiras ticketOf
  rw [foldl_append_singleton]

theorem inferGithubs_eq (githubs prs : List Int) (number : Int) :
    inferGithubs githubs prs number =
      if githubs ≠ [] then githubs else if prs ≠ [] then prs else [number] := by
  unfold inferGithubs
  cases githubs <;> cases prs <;> simp

/-- The result of `processEntry` when the lookup succeeds, field by field. -/
theorem processEntry_ok (repo : String) (fetch : String → Except String CommitContext)
    (filename : String) (entry : ChangelogEntry) (ctx : CommitContext)
    (h : fetch filename = .ok ctx) :
    processEntry repo fetch filename entry = .ok
      { Message := entry.Message
        Type_ := entry.Type_
        Scope := if entry.Scope = "" then "Default" else entry.Scope
        Prs := entry.Prs
        Githubs := inferGithubs entry.Githubs entry.Prs ctx.PullCtx.Number
        Jiras := inferJiras entry.Jiras ctx.PullCtx.Body
        ParsedJiras := resolveJiras entry.ParsedJiras (inferJiras entry.Jiras ctx.PullCtx.Body)
        ParsedGithubs :=
          parseGithub repo (inferGithubs entry.Githubs entry.Prs ctx.PullCtx.Number) } := by
  unfold processEntry
  rw [h]
  by_cases hs : entry.Scope = "" <;> simp [hs]

theorem processEntry_error (repo : String) (fetch : String → Except String CommitContext)
    (filename : String) (entry : ChangelogEntry) (err : String)
    (h : fetch filename = .error err) :
    processEntry repo fetch filename entry = .error ("faield to fetch commit ctx: " ++ err) := by
  unfold processEntry
  rw [h]

/-! ## The deduplicating loop -/

theorem filter_ne_filter_notMem (x : String) (seen : List String) (l : List String)
    (hx : x ∈ seen) :
    (l.filter (fun y => decide (y ≠ x))).filter (fun y => decide (y ∉ seen))
      = l.filter (fun y => decide (y ∉ seen)) := by
  rw [List.filter_filter]
  apply List.filter_congr
  intro y _
  by_cases hy : y ∈ seen
  · simp [hy]
  · have : y ≠ x := fun h => hy (h ▸ hx)
    simp [hy, this]

theorem dedupLoop_fst (l acc seen : List String) :
    (dedupLoop l (acc, seen)).1
      = acc ++ (removeRepeats l).filter (fun y => decide (y ∉ seen)) := by
  induction l generalizing acc seen with
  | nil => simp [dedupLoop, removeRepeats]
  | cons x xs ih =>
    have step : dedupLoop (x :: xs) (acc, seen)
        = dedupLoop xs (if x ∈ seen then (acc, seen) else (acc ++ [x], x :: seen)) := by
      simp [dedupLoop]
    rw [step]
    by_cases hx : x ∈ seen
    · rw [if_pos hx, ih]
      simp only [removeRepeats]
      rw [List.filter_cons_of_neg (by simpa using hx)]
      rw [filter_ne_filter_notMem x seen _ hx]
    · rw [if_neg hx, ih]
      simp only [removeRepeats]
      rw [List.filter_cons_of_pos (by simpa using hx)]
      rw [List.filter_filter]
      simp only [List.append_assoc, List.singleton_append, List.append_cancel_left_eq,
        List.cons.injEq, true_and]
      apply List.filter_congr
      intro y _
      by_cases hy : y = x <;> simp [hy, hx]

theorem inferJiras_empty (body : String) :
    inferJiras [] body = removeRepeats (findAllString body) := by
  unfold inferJiras
  simp [dedupLoop_fst]

theorem inferJiras_declared (declared : List String) (body : String) (h : declared ≠ []) :
    inferJiras declared body = declared := by
  unfold inferJiras
  cases declared with
  | nil => exact absurd rfl h
  | cons x xs => simp

theorem mem_removeRepeats (l : List String) (x : String) : x ∈ removeRepeats l ↔ x ∈ l := by
  induction l with
  | nil => simp [removeRepeats]
  | cons y ys ih =>
    simp only [removeRepeats, List.mem_cons, List.mem_filter, ih]
    by_cases h : x = y <;> simp [h]

theorem nodup_removeRepeats (l : List String) : (removeRepeats l).Nodup := by
  induction l with
  | nil => simp [removeRepeats]
  | cons y ys ih =>
    simp only [removeRepeats, List.nodup_cons, List.mem_filter]
    exact ⟨by simp, ih.filter _⟩

theorem removeRepeats_sublist (l : List String) : (removeRepeats l).Sublist l := by
  induction l with
  | nil => simp [removeRepeats]
  | cons y ys ih =>
    simp only [removeRepeats]
    exact ((List.filter_sublist _).trans ih).cons₂ y

theorem removeRepeats_of_nodup (l : List String) (h : l.Nodup) : removeRepeats l = l := by
  induction l with
  | nil => rfl
  | cons y ys ih =>
    rw [List.nodup_cons] at h
    simp only [removeRepeats, ih h.2, List.cons.injEq, true_and]
    rw [List.filter_eq_self]
    intro a ha
    have : a ≠ y := fun e => h.1 (e ▸ ha)
    simpa using this

/-! ## The ticket pattern -/

theorem isLetter_hyphen : isLetter '-' = false := by decide

theorem isDigit_hyphen : isDigit '-' = false := by decide

theorem matchHere_ticket (ls ds r : List Char) (hls : ls ≠ []) (hds : ds ≠ [])
    (hl : ∀ c ∈ ls, isLetter c = true) (hd : ∀ c ∈ ds, isDigit c = true) :
    matchHere (ls ++ '-' :: (ds ++ r)) = some (ls ++ '-' :: (ds ++ r.takeWhile isDigit)) := by
  have h1 : (ls ++ '-' :: (ds ++ r)).takeWhile isLetter = ls := by
    rw [List.takeWhile_append_of_pos hl,
      List.takeWhile_cons_of_neg (by simp [isLetter_hyphen])]
    simp
  have h2 : (ls ++ '-' :: (ds ++ r)).dropWhile isLetter = '-' :: (ds ++ r) := by
    rw [List.dropWhile_append_of_pos hl,
      List.dropWhile_cons_of_neg (by simp [isLetter_hyphen])]
  have h3 : (ds ++ r).takeWhile isDigit = ds ++ r.takeWhile isDigit :=
    List.takeWhile_append_of_pos hd
  unfold matchHere
  simp only [h1, h2, h3, if_neg hls]
  rw [if_neg (by simp [hds])]

theorem matchHere_some (s m : List Char) (h : matchHere s = some m) :
    IsTicket m ∧ ∃ r, s = m ++ r := by
  unfold matchHere at h
  simp only at h
  split at h
  · exact absurd h (by simp)
  · rename_i hls
    split at h
    · rename_i r0 hdrop
      split at h
      · exact absurd h (by simp)
      · rename_i hds
        injection h with h
        subst h
        refine ⟨⟨_, _, hls, hds, fun c hc => List.mem_takeWhile_imp hc,
          fun c hc => List.mem_takeWhile_imp hc, rfl⟩, r0.dropWhile isDigit, ?_⟩
        have e1 := List.takeWhile_append_dropWhile isLetter s
        have e2 := List.takeWhile_append_dropWhile isDigit r0
        rw [hdrop] at e1
        conv_lhs => rw [← e1, ← e2]
        simp
    · exact absurd h (by simp)

theorem matchHere_longest (s m w r : List Char) (h : matchHere s = some m)
    (hs : s = w ++ r) (hw : IsTicket w) : w.length ≤ m.length := by
  obtain ⟨ls, ds, hls, hds, hl, hd, rfl⟩ := hw
  have := matchHere_ticket ls ds r hls hds hl hd
  rw [hs] at h
  simp only [List.append_assoc, List.cons_append] at h
  rw [this] at h
  injection h with h
  subst h
  simp

theorem matchHere_none (s w r : List Char) (h : matchHere s = none) (hs : s = w ++ r) :
    ¬ IsTicket w := by
  rintro ⟨ls, ds, hls, hds, hl, hd, rfl⟩
  have := matchHere_ticket ls ds r hls hds hl hd
  rw [hs] at h
  simp only [List.append_assoc, List.cons_append] at h
  rw [this] at h
  exact absurd h (by simp)

theorem isTicket_ne_nil (w : List Char) (h : IsTicket w) : w ≠ [] := by
  obtain ⟨ls, ds, _, _, _, _, rfl⟩ := h
  simp

theorem findAllFrom_skip (n : Nat) (s : List Char) :
    findAllFrom n s = findAllFrom 0 (s.drop n) := by
  induction s generalizing n with
  | nil => cases n <;> simp [findAllFrom]
  | cons c cs ih =>
    cases n with
    | zero => simp
    | succ k => simp only [findAllFrom, List.drop_succ_cons]; exact ih k

theorem findAllFrom_nil : findAllFrom 0 [] = [] := by simp [findAllFrom]

theorem findAllFrom_some (s m r : List Char) (h : matchHere s = some m) (hs : s = m ++ r) :
    findAllFrom 0 s = m :: findAllFrom 0 r := by
  have hm := isTicket_ne_nil m (matchHere_some s m h).1
  cases m with
  | nil => exact absurd rfl hm
  | cons c m1 =>
    subst hs
    simp only [List.cons_append] at h ⊢
    rw [findAllFrom]
    simp only [h]
    rw [findAllFrom_skip]
    simp

theorem findAllFrom_none (c : Char) (cs : List Char) (h : matchHere (c :: cs) = none) :
    findAllFrom 0 (c :: cs) = findAllFrom 0 cs := by
  rw [findAllFrom]
  simp only [h]

theorem matches_cons (c : Char) (cs : List Char) (ms : List (List Char))
    (hno : matchHere (c :: cs) = none) (h : Matches cs ms) : Matches (c :: cs) ms := by
  cases h with
  | done _ hdone =>
    refine Matches.done _ (fun p w r hs hw => ?_)
    cases p with
    | nil => exact matchHere_none _ w r hno (by simpa using hs) hw
    | cons c1 p1 =>
      simp only [List.cons_append, List.cons.injEq] at hs
      exact hdone p1 w r hs.2 hw
  | next p m r ms1 hm hleft hrest =>
    have key := Matches.next (c :: p) m r ms1 hm ?_ hrest
    · simpa using key
    · intro p1 w r1 hs hw
      cases p1 with
      | nil => exact absurd hw (matchHere_none _ w r1 hno (by simpa using hs))
      | cons c1 p2 =>
        simp only [List.cons_append, List.cons.injEq] at hs
        rcases hleft p2 w r1 hs.2 hw with h1 | h1
        · left; simp; omega
        · right; simp; omega

theorem matches_findAllFrom_aux (n : Nat) :
    ∀ s : List Char, s.length ≤ n → Matches s (findAllFrom 0 s) := by
  induction n with
  | zero =>
    intro s hs
    have : s = [] := List.length_eq_zero.mp (by omega)
    subst this
    exact findAllFrom_nil ▸ Matches.done [] (fun p w r hs hw => by
      have : w = [] := by
        have := congrArg List.length hs
        simp only [List.length_nil, List.length_append] at this
        exact List.length_eq_zero.mp (by omega)
      exact isTicket_ne_nil w hw this)
  | succ n ih =>
    intro s hn
    cases s with
    | nil => exact ih [] (by simp)
    | cons c cs =>
      cases hm : matchHere (c :: cs) with
      | none =>
        rw [findAllFrom_none c cs hm]
        exact matches_cons c cs _ hm (ih cs (by simpa using hn))
      | some m =>
        obtain ⟨ht, r, hs⟩ := matchHere_some _ _ hm
        rw [findAllFrom_some _ m r hm hs, hs]
        have hlen : r.length ≤ n := by
          have h1 := congrArg List.length hs
          have h2 : 0 < m.length := List.length_pos.mpr (isTicket_ne_nil m ht)
          simp only [List.length_cons, List.length_append] at h1 hn
          omega
        have key := Matches.next [] m r _ ht ?_ (ih r hlen)
        · simpa using key
        · intro p1 w r1 hs1 hw
          cases p1 with
          | nil =>
            right
            refine ⟨rfl, matchHere_longest _ m w r1 hm ?_ hw⟩
            rw [hs]
            simpa using hs1
          | cons c1 p2 => left; simp

/-- The model of `FindAllString` returns the leftmost non-overlapping matches. -/
theorem matches_findAllFrom (s : List Char) : Matches s (findAllFrom 0 s) :=
  matches_findAllFrom_aux s.length s (Nat.le_refl _)

theorem findAllFrom_no_ticket (s : List Char)
    (h : ∀ p w r, s = p ++ (w ++ r) → ¬ IsTicket w) : findAllFrom 0 s = [] := by
  induction s with
  | nil => exact findAllFrom_nil
  | cons c cs ih =>
    cases hm : matchHere (c :: cs) with
    | some m =>
      obtain ⟨ht, r, hs⟩ := matchHere_some _ _ hm
      exact absurd ht (h [] m r (by simpa using hs))
    | none =>
      rw [findAllFrom_none c cs hm]
      exact ih (fun p w r hs => h (c :: p) w r (by simp [hs]))

theorem findAllFrom_leftmost (p m r : List Char) (hm : IsTicket m)
    (hleft : ∀ p' w r', p ++ (m ++ r) = p' ++ (w ++ r') → IsTicket w →
      p.length < p'.length ∨ (p'.length = p.length ∧ w.length ≤ m.length)) :
    findAllFrom 0 (p ++ (m ++ r)) = m :: findAllFrom 0 r := by
  induction p with
  | nil =>
    obtain ⟨ls, ds, hls, hds, hl, hd, rfl⟩ := hm
    have h1 := matchHere_ticket ls ds r hls hds hl hd
    obtain ⟨ht1, r1, hs1⟩ := matchHere_some _ _ h1
    have h2 := hleft [] _ r1 (by simpa using hs1) ht1
    have h3 : r.takeWhile isDigit = [] := by
      rcases h2 with h2 | h2
      · simp at h2
      · have := h2.2
        simp only [List.length_append, List.length_cons] at this
        exact List.length_eq_zero.mp (by omega)
    rw [h3] at h1
    simp only [List.append_nil] at h1
    exact findAllFrom_some _ _ r (by simpa using h1) (by simp)
  | cons c p ih =>
    have hno : matchHere (c :: (p ++ (m ++ r))) = none := by
      cases hm1 : matchHere (c :: (p ++ (m ++ r))) with
      | none => rfl
      | some m1 =>
        obtain ⟨ht1, r1, hs1⟩ := matchHere_some _ _ hm1
        rcases hleft [] m1 r1 (by simpa using hs1) ht1 with h2 | h2
        · simp at h2
        · simp at h2
    rw [List.cons_append, findAllFrom_none _ _ hno]
    apply ih
    intro p1 w r1 hs hw
    rcases hleft (c :: p1) w r1 (by simp [hs]) hw with h2 | h2
    · left; simp at h2; omega
    · right; simp at h2; omega

/-- The leftmost non-overlapping matches are what the model of `FindAllString`
returns, and nothing else. -/
theorem matches_unique (s : List Char) (ms : List (List Char)) (h : Matches s ms) :
    ms = findAllFrom 0 s := by
  induction h with
  | done s hno => exact (findAllFrom_no_ticket s hno).symm
  | next p m r ms hm hleft _ ih => rw [findAllFrom_leftmost p m r hm hleft, ih]

/-! ## Decimal rendering is injective -/

theorem digitVal_digitChar (k : Nat) (h : k < 10) : digitVal (Nat.digitChar k) = k := by
  interval_cases k <;> rfl

theorem digitChar_ne_hyphen (k : Nat) (h : k < 10) : Nat.digitChar k ≠ '-' := by
  interval_cases k <;> decide

theorem decVal_append_singleton (l : List Char) (c : Char) :
    decVal (l ++ [c]) = 10 * decVal l + digitVal c := by
  simp [decVal, List.foldl_append]

theorem toDigitsCore_spec (fuel : Nat) : ∀ (n : Nat) (ds : List Char), n < fuel →
    ∃ l, Nat.toDigitsCore 10 fuel n ds = l ++ ds ∧ decVal l = n ∧ l ≠ [] ∧
      ∀ c ∈ l, c ≠ '-' := by
  induction fuel with
  | zero => intro n ds h; omega
  | succ fuel ih =>
    intro n ds h
    rw [Nat.toDigitsCore]
    by_cases h0 : n / 10 = 0
    · simp only [h0, if_true]
      refine ⟨[Nat.digitChar (n % 10)], rfl, ?_, by simp, ?_⟩
      · have h1 : n % 10 = n := by omega
        have h2 := digitVal_digitChar (n % 10) (Nat.mod_lt _ (by decide))
        simp only [decVal, List.foldl_cons, List.foldl_nil, h2]
        omega
      · intro c hc
        simp only [List.mem_singleton] at hc
        subst hc
        exact digitChar_ne_hyphen _ (Nat.mod_lt _ (by decide))
    · simp only [h0, if_false]
      obtain ⟨l, hl, hv, hne, hh⟩ := ih (n / 10) (Nat.digitChar (n % 10) :: ds) (by omega)
      refine ⟨l ++ [Nat.digitChar (n % 10)], by simp [hl], ?_, by simp, ?_⟩
      · rw [decVal_append_singleton, hv, digitVal_digitChar _ (Nat.mod_lt _ (by decide))]
        omega
      · intro c hc
        rcases List.mem_append.mp hc with hc | hc
        · exact hh c hc
        · simp only [List.mem_singleton] at hc
          subst hc
          exact digitChar_ne_hyphen _ (Nat.mod_lt _ (by decide))

theorem repr_spec (n : Nat) : decVal (Nat.repr n).data = n ∧ (Nat.repr n).data ≠ [] ∧
    ∀ c ∈ (Nat.repr n).data, c ≠ '-' := by
  obtain ⟨l, hl, hv, hne, hh⟩ := toDigitsCore_spec (n + 1) n [] (by omega)
  have : (Nat.repr n).data = l := by
    simp [Nat.repr, Nat.toDigits, hl, List.asString]
  rw [this]
  exact ⟨hv, hne, hh⟩

theorem fmtInt_injective : Function.Injective fmtInt := by
  intro a b h
  unfold fmtInt at h
  cases a with
  | ofNat a =>
    cases b with
    | ofNat b =>
      have h1 : Nat.repr a = Nat.repr b := h
      have := congrArg (fun s => decVal s.data) h1
      simp only [(repr_spec a).1, (repr_spec b).1] at this
      rw [this]
    | negSucc b =>
      exfalso
      have h1 : Nat.repr a = "-" ++ Nat.repr (b + 1) := h
      have h2 := congrArg String.data h1
      obtain ⟨_, hne, hh⟩ := repr_spec a
      rw [h2] at hh
      exact hh '-' (by simp) rfl
  | negSucc a =>
    cases b with
    | ofNat b =>
      exfalso
      have h1 : "-" ++ Nat.repr (a + 1) = Nat.repr b := h
      have h2 := congrArg String.data h1
      obtain ⟨_, hne, hh⟩ := repr_spec b
      rw [← h2] at hh
      exact hh '-' (by simp) rfl
    | negSucc b =>
      have h1 : "-" ++ Nat.repr (a + 1) = "-" ++ Nat.repr (b + 1) := h
      have h2 := congrArg String.data h1
      simp only [String.data_append, List.append_cancel_left_eq] at h2
      have := congrArg decVal h2
      simp only [(repr_spec _).1] at this
      have : a = b := by omega
      rw [this]

theorem issueName_injective (repo : String) :
    Function.Injective (fun no => (issueOf repo no).Name) := by
  intro a b h
  simp only [issueOf] at h
  have h2 := congrArg String.data h
  simp only [String.data_append, List.append_cancel_left_eq] at h2
  exact fmtInt_injective (String.ext h2)

theorem ticketID_map (l : List String) : (l.map ticketOf).map Jira.ID = l := by
  induction l with
  | nil => rfl
  | cons x xs ih => simp [ticketOf] at ih ⊢; exact ih

theorem inferJiras_idem (declared : List String) (body : String) :
    inferJiras (inferJiras declared body) body = inferJiras declared body := by
  by_cases hd : declared = []
  · subst hd
    by_cases hr : inferJiras [] body = []
    · rw [hr, hr]
    · exact inferJiras_declared _ body hr
  · rw [inferJiras_declared declared body hd, inferJiras_declared declared body hd]

/-! ## Claims about processEntry -/

/-- C2: after `processEntry` the issue-number list is the declared `githubs` list when
that is non-empty, otherwise the declared `prs` list when that is non-empty, otherwise
the one-element list holding the PR number of the commit lookup. -/
theorem processEntry_issue_fallback (repo : String)
    (fetch : String → Except String CommitContext) (filename : String)
    (entry : ChangelogEntry) (ctx : CommitContext) (h : fetch filename = .ok ctx) :
    ∃ e, processEntry repo fetch filename entry = .ok e ∧
      e.Githubs =
        if entry.Githubs ≠ [] then entry.Githubs
        else if entry.Prs ≠ [] then entry.Prs
        else [ctx.PullCtx.Number] := by
  refine ⟨_, processEntry_ok repo fetch filename entry ctx h, ?_⟩
  exact inferGithubs_eq _ _ _

/-- The statement of C2 at a fragment without identifiers: the looked-up number is taken. -/
theorem processEntry_issue_fallback_witness :
    sampleFetch "a.yml" = .ok sampleCtx ∧
    ∃ e, processEntry "Kong/kong" sampleFetch "a.yml" bareEntry = .ok e ∧
      e.Githubs =
        if bareEntry.Githubs ≠ [] then bareEntry.Githubs
        else if bareEntry.Prs ≠ [] then bareEntry.Prs
        else [sampleCtx.PullCtx.Number] :=
  ⟨rfl, processEntry_issue_fallback "Kong/kong" sampleFetch "a.yml" bareEntry sampleCtx rfl⟩

/-- C3: for a fragment that declares no tickets, the ticket list after `processEntry`
is the left-to-right sequence of non-overlapping matches of `[a-zA-Z]+-\d+` in the PR
body (there is exactly one such sequence) with every repeat after the first occurrence
removed; a fragment that declares tickets keeps its list whatever the body is;
processing the result again with the same body leaves the list as it is; and for the
body "see ABC-1 and ABC-1 again, also XYZ-2" the list is `["ABC-1", "XYZ-2"]`. -/
theorem processEntry_tickets (repo : String)
    (fetch : String → Except String CommitContext) (filename : String)
    (entry : ChangelogEntry) (ctx : CommitContext) (h : fetch filename = .ok ctx) :
    ∃ e, processEntry repo fetch filename entry = .ok e ∧
      (∃ ms, Matches ctx.PullCtx.Body.data ms ∧
        (∀ ms1, Matches ctx.PullCtx.Body.data ms1 → ms1 = ms) ∧
        e.Jiras =
          if entry.Jiras = [] then removeRepeats (ms.map String.mk) else entry.Jiras) ∧
      (∃ e2, processEntry repo fetch filename e = .ok e2 ∧ e2.Jiras = e.Jiras) ∧
      (entry.Jiras = [] → ctx.PullCtx.Body = "see ABC-1 and ABC-1 again, also XYZ-2" →
        e.Jiras = ["ABC-1", "XYZ-2"]) := by
  refine ⟨_, processEntry_ok repo fetch filename entry ctx h, ?_, ?_, ?_⟩
  · refine ⟨findAllFrom 0 ctx.PullCtx.Body.data, matches_findAllFrom _, ?_, ?_⟩
    · intro ms1 h1
      exact matches_unique _ _ h1
    · by_cases hj : entry.Jiras = []
      · simp only [hj, if_true]
        exact inferJiras_empty _
      · simp only [hj, if_false]
        exact inferJiras_declared _ _ hj
  · refine ⟨_, processEntry_ok repo fetch filename _ ctx h, ?_⟩
    exact inferJiras_idem _ _
  · intro hj hb
    simp only [hj, hb]
    decide

/-- The statement of C3 at a fragment without tickets and the sample body. -/
theorem processEntry_tickets_witness :
    sampleFetch "a.yml" = .ok sampleCtx ∧
    ∃ e, processEntry "Kong/kong" sampleFetch "a.yml" bareEntry = .ok e ∧
      (∃ ms, Matches sampleCtx.PullCtx.Body.data ms ∧
        (∀ ms1, Matches sampleCtx.PullCtx.Body.data ms1 → ms1 = ms) ∧
        e.Jiras =
          if bareEntry.Jiras = [] then removeRepeats (ms.map String.mk)
          else bareEntry.Jiras) ∧
      (∃ e2, processEntry "Kong/kong" sampleFetch "a.yml" e = .ok e2 ∧ e2.Jiras = e.Jiras) ∧
      (bareEntry.Jiras = [] →
        sampleCtx.PullCtx.Body = "see ABC-1 and ABC-1 again, also XYZ-2" →
        e.Jiras = ["ABC-1", "XYZ-2"]) :=
  ⟨rfl, processEntry_tickets "Kong/kong" sampleFetch "a.yml" bareEntry sampleCtx rfl⟩

/-- After `processEntry` the list `ParsedJiras` is the list the entry came with, followed
by the resolved tickets of `Jiras`; `ParsedGithubs` is built anew from `Githubs`. -/
theorem processEntry_parsed (repo : String)
    (fetch : String → Except String CommitContext) (filename : String)
    (entry : ChangelogEntry) (ctx : CommitContext) (h : fetch filename = .ok ctx) :
    ∃ e, processEntry repo fetch filename entry = .ok e ∧
      e.ParsedJiras = entry.ParsedJiras ++ e.Jiras.map ticketOf ∧
      e.ParsedGithubs = e.Githubs.map (issueOf repo) := by
  refine ⟨_, processEntry_ok repo fetch filename entry ctx h, ?_, ?_⟩
  · simp only [resolveJiras_eq_map]
  · simp only [parseGithub_eq_map]

/-- C9, against the claim as stated: a fragment that declares the ticket `KAG-1` and
arrives with the ticket `OLD-1` in `ParsedJiras` (the key `parsedjiras` of its file)
ends with `ParsedJiras` holding `OLD-1` and `KAG-1` while `Jiras` holds `KAG-1` alone:
`processEntry` appends to the list and does not start it anew. -/
theorem stale_tickets_kept :
    ∃ e, processEntry "Kong/kong" sampleFetch "a.yml" staleEntry = .ok e ∧
      e.Jiras = ["KAG-1"] ∧ e.ParsedJiras.map Jira.ID = ["OLD-1", "KAG-1"] ∧
      e.ParsedJiras ≠
        e.Jiras.map (fun jiraId => { ID := jiraId, Link := JiraBaseUrl ++ jiraId }) :=
  ⟨_, rfl, by decide, by decide, by decide⟩

/-- C9 as amended: for every fragment, after `processEntry`, `ParsedGithubs` holds for
each number `n` of `Githubs`, in order, the name `#n` and the link
`https://github.com/<repo>/issues/n`; and when the fragment reaches `processEntry` with
an empty `ParsedJiras` (its file sets no `parsedjiras` key), `ParsedJiras` holds for
each ticket ID of `Jiras`, in order, the ID and the tracker base URL followed by the
ID. -/
theorem processEntry_resolved_mirror (repo : String)
    (fetch : String → Except String CommitContext) (filename : String)
    (entry : ChangelogEntry) (ctx : CommitContext) (h : fetch filename = .ok ctx) :
    ∃ e, processEntry repo fetch filename entry = .ok e ∧
      (entry.ParsedJiras = [] →
        e.ParsedJiras =
          e.Jiras.map (fun jiraId => { ID := jiraId, Link := JiraBaseUrl ++ jiraId })) ∧
      e.ParsedGithubs = e.Githubs.map (fun no =>
        { Name := "#" ++ fmtInt no,
          Link := "https://github.com/" ++ repo ++ "/issues/" ++ fmtInt no }) := by
  refine ⟨_, processEntry_ok repo fetch filename entry ctx h, ?_, ?_⟩
  · intro hfresh
    simp only [hfresh, resolveJiras_eq_map, List.nil_append]
    rfl
  · simp only [parseGithub_eq_map]
    rfl

/-- The amended statement of C9 at a fragment that declares tickets and issues. -/
theorem processEntry_resolved_mirror_witness :
    sampleFetch "a.yml" = .ok sampleCtx ∧ repeatingEntry.ParsedJiras = [] ∧
    ∃ e, processEntry "Kong/kong" sampleFetch "a.yml" repeatingEntry = .ok e ∧
      (repeatingEntry.ParsedJiras = [] →
        e.ParsedJiras =
          e.Jiras.map (fun jiraId => { ID := jiraId, Link := JiraBaseUrl ++ jiraId })) ∧
      e.ParsedGithubs = e.Githubs.map (fun no =>
        { Name := "#" ++ fmtInt no,
          Link := "https://github.com/" ++ "Kong/kong" ++ "/issues/" ++ fmtInt no }) :=
  ⟨rfl, rfl,
    processEntry_resolved_mirror "Kong/kong" sampleFetch "a.yml" repeatingEntry sampleCtx rfl⟩

/-- C4, against the claim as stated: a fragment that declares the ticket `KAG-1` twice
and the issue `7` twice keeps both repeats in `ParsedJiras` and in `ParsedGithubs`; and
a fragment that declares `KAG-1` once but arrives with `KAG-1` already in `ParsedJiras`
(the key `parsedjiras` of its file) ends with `KAG-1` twice in `ParsedJiras`. -/
theorem declared_repeats_survive :
    (∃ e, processEntry "Kong/kong" sampleFetch "a.yml" repeatingEntry = .ok e ∧
      ¬ (e.ParsedJiras.map Jira.ID).Nodup ∧ ¬ (e.ParsedGithubs.map Github.Name).Nodup) ∧
    (∃ e, processEntry "Kong/kong" sampleFetch "a.yml" resolvedEntry = .ok e ∧
      resolvedEntry.Jiras.Nodup ∧ e.ParsedJiras.map Jira.ID = ["KAG-1", "KAG-1"] ∧
      ¬ (e.ParsedJiras.map Jira.ID).Nodup) :=
  ⟨⟨_, rfl, by decide, by decide⟩, ⟨_, rfl, by decide, by decide, by decide⟩⟩

/-- After `processEntry`, `ParsedGithubs` repeats an issue exactly when the list it was
built from does, and so does `ParsedJiras` when the entry came without resolved
tickets. -/
theorem parsed_nodup_iff (repo : String)
    (fetch : String → Except String CommitContext) (filename : String)
    (entry : ChangelogEntry) (ctx : CommitContext) (h : fetch filename = .ok ctx) :
    ∃ e, processEntry repo fetch filename entry = .ok e ∧
      (entry.ParsedJiras = [] → ((e.ParsedJiras.map Jira.ID).Nodup ↔ entry.Jiras.Nodup)) ∧
      ((e.ParsedGithubs.map Github.Name).Nodup ↔
        (if entry.Githubs = [] then entry.Prs else entry.Githubs).Nodup) := by
  refine ⟨_, processEntry_ok repo fetch filename entry ctx h, ?_, ?_⟩
  · intro hfresh
    simp only [hfresh, resolveJiras_eq_map, List.nil_append, ticketID_map]
    by_cases hj : entry.Jiras = []
    · rw [hj, inferJiras_empty]
      simp [nodup_removeRepeats]
    · rw [inferJiras_declared _ _ hj]
  · simp only [parseGithub_eq_map, List.map_map]
    have hinj : Function.Injective (Github.Name ∘ issueOf repo) := issueName_injective repo
    rw [List.nodup_map_iff hinj, inferGithubs_eq]
    by_cases hg : entry.Githubs = []
    · by_cases hp : entry.Prs = []
      · simp [hg, hp]
      · simp [hg, hp]
    · simp [hg]

/-- C4 as amended: for every fragment and pull-request context, after `processEntry`
no ticket identifier appears twice in `ParsedJiras` when the fragment reaches
`processEntry` with an empty `ParsedJiras` (its file sets no `parsedjiras` key) and its
declared `jiras` list names no ticket twice (as when it declares none); and no issue
reference appears twice in `ParsedGithubs` when the declared `githubs` list, or the
declared `prs` list when `githubs` is empty, names no number twice (as when both are
empty). -/
theorem processEntry_no_repeats (repo : String)
    (fetch : String → Except String CommitContext) (filename : String)
    (entry : ChangelogEntry) (ctx : CommitContext) (h : fetch filename = .ok ctx) :
    ∃ e, processEntry repo fetch filename entry = .ok e ∧
      (entry.ParsedJiras = [] → entry.Jiras.Nodup → (e.ParsedJiras.map Jira.ID).Nodup) ∧
      ((if entry.Githubs = [] then entry.Prs else entry.Githubs).Nodup →
        (e.ParsedGithubs.map Github.Name).Nodup) := by
  obtain ⟨e, he, h1, h2⟩ := parsed_nodup_iff repo fetch filename entry ctx h
  exact ⟨e, he, fun hfresh => (h1 hfresh).mpr, h2.mpr⟩

/-- The amended statement of C4 at a fragment without identifiers. -/
theorem processEntry_no_repeats_witness :
    sampleFetch "a.yml" = .ok sampleCtx ∧ bareEntry.ParsedJiras = [] ∧
    bareEntry.Jiras.Nodup ∧
    (if bareEntry.Githubs = [] then bareEntry.Prs else bareEntry.Githubs).Nodup ∧
    ∃ e, processEntry "Kong/kong" sampleFetch "a.yml" bareEntry = .ok e ∧
      (bareEntry.ParsedJiras = [] → bareEntry.Jiras.Nodup →
        (e.ParsedJiras.map Jira.ID).Nodup) ∧
      ((if bareEntry.Githubs = [] then bareEntry.Prs else bareEntry.Githubs).Nodup →
        (e.ParsedGithubs.map Github.Name).Nodup) :=
  ⟨rfl, rfl, by decide, by decide,
    processEntry_no_repeats "Kong/kong" sampleFetch "a.yml" bareEntry sampleCtx rfl⟩

/-! ## Go maps as association lists -/

theorem mapGet_mapSet {V : Type} (m : List (String × V)) (k : String) (v : V) (k1 : String) :
    mapGet (mapSet m k v) k1 = if k = k1 then some v else mapGet m k1 := by
  induction m with
  | nil => simp [mapSet, mapGet]
  | cons kv rest ih =>
    obtain ⟨k0, v0⟩ := kv
    by_cases h0 : k0 = k
    · subst h0
      by_cases h1 : k0 = k1 <;> simp [mapSet, mapGet, h1]
    · by_cases h1 : k0 = k1
      · subst h1
        have : ¬ k = k0 := fun e => h0 e.symm
        simp [mapSet, mapGet, h0, this]
      · simp [mapSet, mapGet, h0, h1, ih]

theorem mapGet_eq_none_iff {V : Type} (m : List (String × V)) (k : String) :
    mapGet m k = none ↔ k ∉ m.map Prod.fst := by
  induction m with
  | nil => simp [mapGet]
  | cons kv rest ih =>
    obtain ⟨k0, v0⟩ := kv
    by_cases h0 : k0 = k
    · simp [mapGet, h0]
    · have : ¬ k = k0 := fun e => h0 e.symm
      simp [mapGet, h0, ih, this]

theorem keys_mapSet {V : Type} (m : List (String × V)) (k : String) (v : V) :
    (mapSet m k v).map Prod.fst =
      if k ∈ m.map Prod.fst then m.map Prod.fst else m.map Prod.fst ++ [k] := by
  induction m with
  | nil => simp [mapSet]
  | cons kv rest ih =>
    obtain ⟨k0, v0⟩ := kv
    by_cases h0 : k0 = k
    · simp [mapSet, h0]
    · have h1 : ¬ k = k0 := fun e => h0 e.symm
      simp only [mapSet, h0, if_false, List.map_cons, ih, List.mem_cons, h1, false_or]
      by_cases h2 : k ∈ rest.map Prod.fst <;> simp [h2]

theorem mem_keys_mapSet {V : Type} (m : List (String × V)) (k : String) (v : V) (k1 : String) :
    k1 ∈ (mapSet m k v).map Prod.fst ↔ k1 = k ∨ k1 ∈ m.map Prod.fst := by
  rw [keys_mapSet]
  by_cases h : k ∈ m.map Prod.fst
  · rw [if_pos h]
    constructor
    · exact Or.inr
    · rintro (e | e)
      · exact e ▸ h
      · exact e
  · rw [if_neg h]
    simp only [List.mem_append, List.mem_singleton]
    tauto

theorem nodup_keys_mapSet {V : Type} (m : List (String × V)) (k : String) (v : V)
    (h : (m.map Prod.fst).Nodup) : ((mapSet m k v).map Prod.fst).Nodup := by
  rw [keys_mapSet]
  by_cases hk : k ∈ m.map Prod.fst
  · rw [if_pos hk]; exact h
  · rw [if_neg hk]
    exact List.Nodup.append h (List.nodup_singleton k) (by
      intro a ha hb
      simp only [List.mem_singleton] at hb
      exact hk (hb ▸ ha))

theorem mapSet_mapSet {V : Type} (m : List (String × V)) (k : String) (v v1 : V) :
    mapSet (mapSet m k v) k v1 = mapSet m k v1 := by
  induction m with
  | nil => simp [mapSet]
  | cons kv rest ih =>
    obtain ⟨k0, v0⟩ := kv
    by_cases h0 : k0 = k <;> simp [mapSet, h0, ih]

theorem mapSet_of_not_mem {V : Type} (m : List (String × V)) (k : String) (v : V)
    (h : k ∉ m.map Prod.fst) : mapSet m k v = m ++ [(k, v)] := by
  induction m with
  | nil => simp [mapSet]
  | cons kv rest ih =>
    obtain ⟨k0, v0⟩ := kv
    simp only [List.map_cons, List.mem_cons, not_or] at h
    have h0 : ¬ k0 = k := fun e => h.1 e.symm
    simp [mapSet, h0, ih h.2]

theorem mapGet_map {V W : Type} (m : List (String × V)) (f : String → V → W) (k : String) :
    mapGet (m.map (fun kv => (kv.1, f kv.1 kv.2))) k = (mapGet m k).map (f k) := by
  induction m with
  | nil => simp [mapGet]
  | cons kv rest ih =>
    obtain ⟨k0, v0⟩ := kv
    by_cases h0 : k0 = k
    · simp [mapGet, h0]
    · simp [mapGet, h0, ih]

theorem foldl_mapSet_fresh {V W : Type} (f : String → V → W) (m : List (String × V))
    (init : List (String × W)) (h : (init.map Prod.fst ++ m.map Prod.fst).Nodup) :
    m.foldl (fun data kv => mapSet data kv.1 (f kv.1 kv.2)) init
      = init ++ m.map (fun kv => (kv.1, f kv.1 kv.2)) := by
  induction m generalizing init with
  | nil => simp
  | cons kv rest ih =>
    obtain ⟨k0, v0⟩ := kv
    have hk : k0 ∉ init.map Prod.fst := by
      intro hmem
      rw [List.nodup_append] at h
      exact h.2.2 hmem (by simp)
    simp only [List.foldl_cons]
    rw [mapSet_of_not_mem init k0 _ hk, ih]
    · simp
    · simpa using h

/-! ## Filing the entries -/

theorem addEntry_eq (maps : List (String × List (String × List ChangelogEntry)))
    (e : ChangelogEntry) :
    addEntry maps e =
      mapSet maps e.Type_
        (mapSet ((mapGet maps e.Type_).getD []) e.Scope
          ((mapGet ((mapGet maps e.Type_).getD []) e.Scope).getD [] ++ [e])) := by
  unfold addEntry
  by_cases h : mapGet maps e.Type_ = none
  · simp only [h, if_true, mapGet_mapSet, Option.getD_some, Option.getD_none, mapSet_mapSet]
  · simp only [h, if_false]

theorem mapGet_addEntry (maps : List (String × List (String × List ChangelogEntry)))
    (e : ChangelogEntry) (c : String) :
    (mapGet (addEntry maps e) c).getD [] =
      if e.Type_ = c then
        mapSet ((mapGet maps c).getD []) e.Scope
          ((mapGet ((mapGet maps c).getD []) e.Scope).getD [] ++ [e])
      else (mapGet maps c).getD [] := by
  rw [addEntry_eq, mapGet_mapSet]
  by_cases h : e.Type_ = c
  · subst h; simp
  · simp [h]

theorem grouped_nil : Grouped [] [] where
  keys_nodup := by simp
  inner_nodup := by intro c; simp [mapGet]
  key_iff := by intro c; simp
  inner_key_iff := by intro c s; simp [mapGet]
  bucket := by intro c s; simp [mapGet]

theorem grouped_addEntry (entries : List ChangelogEntry)
    (maps : List (String × List (String × List ChangelogEntry))) (e : ChangelogEntry)
    (h : Grouped entries maps) : Grouped (entries ++ [e]) (addEntry maps e) where
  keys_nodup := by
    rw [addEntry_eq]
    exact nodup_keys_mapSet _ _ _ h.keys_nodup
  inner_nodup := by
    intro c
    rw [mapGet_addEntry]
    by_cases hc : e.Type_ = c
    · rw [if_pos hc]
      exact nodup_keys_mapSet _ _ _ (h.inner_nodup c)
    · rw [if_neg hc]
      exact h.inner_nodup c
  key_iff := by
    intro c
    rw [addEntry_eq, mem_keys_mapSet, h.key_iff c]
    constructor
    · rintro (hc | ⟨e1, he1, hc⟩)
      · exact ⟨e, by simp, hc.symm⟩
      · exact ⟨e1, by simp [he1], hc⟩
    · rintro ⟨e1, he1, hc⟩
      rcases List.mem_append.mp he1 with he1 | he1
      · exact Or.inr ⟨e1, he1, hc⟩
      · simp only [List.mem_singleton] at he1
        subst he1
        exact Or.inl hc.symm
  inner_key_iff := by
    intro c s
    rw [mapGet_addEntry]
    by_cases hc : e.Type_ = c
    · rw [if_pos hc, mem_keys_mapSet, h.inner_key_iff c s]
      constructor
      · rintro (hs | ⟨e1, he1, h1⟩)
        · exact ⟨e, by simp, hc, hs.symm⟩
        · exact ⟨e1, by simp [he1], h1⟩
      · rintro ⟨e1, he1, h1⟩
        rcases List.mem_append.mp he1 with he1 | he1
        · exact Or.inr ⟨e1, he1, h1⟩
        · simp only [List.mem_singleton] at he1
          subst he1
          exact Or.inl h1.2.symm
    · rw [if_neg hc, h.inner_key_iff c s]
      constructor
      · rintro ⟨e1, he1, h1⟩
        exact ⟨e1, by simp [he1], h1⟩
      · rintro ⟨e1, he1, h1⟩
        rcases List.mem_append.mp he1 with he1 | he1
        · exact ⟨e1, he1, h1⟩
        · simp only [List.mem_singleton] at he1
          subst he1
          exact absurd h1.1 hc
  bucket := by
    intro c s
    rw [mapGet_addEntry, List.filter_append]
    by_cases hc : e.Type_ = c
    · rw [if_pos hc, mapGet_mapSet]
      by_cases hs : e.Scope = s
      · rw [if_pos hs]
        subst hs
        simp [h.bucket c e.Scope, hc]
      · rw [if_neg hs]
        simp [h.bucket c s, hs]
    · rw [if_neg hc]
      simp [h.bucket c s, hc]

theorem grouped_foldl (entries : List ChangelogEntry) :
    ∀ (done : List ChangelogEntry) (maps : List (String × List (String × List ChangelogEntry))),
      Grouped done maps → Grouped (done ++ entries) (entries.foldl addEntry maps) := by
  induction entries with
  | nil => intro done maps h; simpa using h
  | cons e es ih =>
    intro done maps h
    have := ih (done ++ [e]) (addEntry maps e) (grouped_addEntry done maps e h)
    simpa using this

theorem collectFile_eq (env : Env) (maps : List (String × List (String × List ChangelogEntry)))
    (file : DirEntry) :
    collectFile env maps file =
      match enrichedOf env file with
      | .error err => .error err
      | .ok none => .ok maps
      | .ok (some e) => .ok (addEntry maps e) := by
  unfold collectFile enrichedOf
  split
  · rfl
  · split
    · rfl
    · split
      · rfl
      · split <;> rfl

theorem collectLoop_eq (env : Env) (files : List DirEntry) :
    ∀ maps, collectLoop env files maps =
      match enrichedAll env files with
      | .error err => .error err
      | .ok entries => .ok (entries.foldl addEntry maps) := by
  induction files with
  | nil => intro maps; rfl
  | cons file files ih =>
    intro maps
    rw [collectLoop, collectFile_eq, enrichedAll]
    cases h1 : enrichedOf env file with
    | error err => rfl
    | ok o =>
      cases o with
      | none => simp only [ih]
      | some e =>
        simp only [ih]
        cases h2 : enrichedAll env files with
        | error err => rfl
        | ok entries => rfl

/-! ## Sorting the scopes -/

theorem sinkInto_perm {α : Type} (less : α → α → Bool) (x : α) (done : List α) :
    (sinkInto less x done).Perm (x :: done) := by
  induction done with
  | nil => exact List.Perm.refl _
  | cons y ys ih =>
    unfold sinkInto
    by_cases h : less x y = true
    · rw [if_pos h]
      exact (List.Perm.cons y ih).trans (List.Perm.swap x y ys)
    · rw [if_neg h]

theorem foldl_sinkInto_perm {α : Type} (less : α → α → Bool) (data : List α) :
    ∀ done, (data.foldl (fun done x => sinkInto less x done) done).Perm (data ++ done) := by
  induction data with
  | nil => intro done; exact List.Perm.refl _
  | cons x xs ih =>
    intro done
    simp only [List.foldl_cons, List.cons_append]
    refine (ih _).trans ?_
    exact (List.Perm.append_left xs (sinkInto_perm less x done)).trans
      List.perm_middle

theorem sortSlice_perm {α : Type} (less : α → α → Bool) (data : List α) :
    (sortSlice less data).Perm data := by
  unfold sortSlice
  refine (List.reverse_perm _).trans ?_
  simpa using foldl_sinkInto_perm less data []

theorem sinkInto_descending {α : Type} (f : α → Int) (x : α) (done : List α)
    (h : done.Pairwise (fun a b => f b ≤ f a)) :
    (sinkInto (fun a b => decide (f a < f b)) x done).Pairwise (fun a b => f b ≤ f a) := by
  induction done with
  | nil => simp [sinkInto]
  | cons y ys ih =>
    rw [List.pairwise_cons] at h
    unfold sinkInto
    by_cases hxy : f x < f y
    · simp only [hxy, decide_True, if_true]
      rw [List.pairwise_cons]
      refine ⟨?_, ih h.2⟩
      intro a ha
      rcases List.mem_cons.mp ((List.Perm.mem_iff (sinkInto_perm _ x ys)).mp ha) with e | e
      · rw [e]; exact le_of_lt hxy
      · exact h.1 a e
    · simp only [hxy, decide_False, Bool.false_eq_true, if_false]
      rw [List.pairwise_cons, List.pairwise_cons]
      refine ⟨?_, h.1, h.2⟩
      intro a ha
      rcases List.mem_cons.mp ha with ha | ha
      · rw [ha]; exact not_lt.mp hxy
      · exact le_trans (h.1 a ha) (not_lt.mp hxy)

theorem foldl_sinkInto_descending {α : Type} (f : α → Int) (data : List α) :
    ∀ done, done.Pairwise (fun a b => f b ≤ f a) →
      (data.foldl (fun done x => sinkInto (fun a b => decide (f a < f b)) x done) done).Pairwise
        (fun a b => f b ≤ f a) := by
  induction data with
  | nil => intro done h; exact h
  | cons x xs ih =>
    intro done h
    exact ih _ (sinkInto_descending f x done h)

/-- The model of `sort.Slice` returns its input in non-decreasing order of the key. -/
theorem sortSlice_sorted {α : Type} (f : α → Int) (data : List α) :
    (sortSlice (fun a b => decide (f a < f b)) data).Pairwise (fun a b => f a ≤ f b) := by
  unfold sortSlice
  rw [List.pairwise_reverse]
  exact foldl_sinkInto_descending f data [] List.Pairwise.nil

/-- Two lists in non-decreasing key order that hold the same elements are equal when no
two of the elements share a key. Whatever `sort.Slice` does inside, its result is then
fixed. -/
theorem sorted_perm_unique {α : Type} (f : α → Int) :
    ∀ (l1 l2 : List α), l1.Perm l2 →
      l1.Pairwise (fun a b => f a ≤ f b) → l2.Pairwise (fun a b => f a ≤ f b) →
      (∀ a ∈ l1, ∀ b ∈ l1, f a = f b → a = b) → l1 = l2 := by
  intro l1
  induction l1 with
  | nil => intro l2 hp _ _ _; exact (List.Perm.nil_eq hp)
  | cons a t1 ih =>
    intro l2 hp h1 h2 hinj
    cases l2 with
    | nil => exact absurd (List.Perm.eq_nil hp) (by simp)
    | cons b t2 =>
      rw [List.pairwise_cons] at h1 h2
      have hb : b ∈ a :: t1 := (List.Perm.mem_iff hp).mpr (List.mem_cons_self b t2)
      have ha : a ∈ b :: t2 := (List.Perm.mem_iff hp).mp (List.mem_cons_self a t1)
      have hab : f a ≤ f b := by
        rcases List.mem_cons.mp hb with e | e
        · rw [e]
        · exact h1.1 b e
      have hba : f b ≤ f a := by
        rcases List.mem_cons.mp ha with e | e
        · rw [e]
        · exact h2.1 a e
      have e : a = b := hinj a (List.mem_cons_self a t1) b hb (le_antisymm hab hba)
      subst e
      have hp2 : t1.Perm t2 := List.Perm.cons_inv hp
      rw [ih t2 hp2 h1.2 h2.2 (fun x hx y hy => hinj x (List.mem_cons_of_mem _ hx) y
        (List.mem_cons_of_mem _ hy))]

theorem scopeList_eq (order : List String → List String)
    (scopeEntries : List (String × List ChangelogEntry)) :
    scopeList order scopeEntries =
      (sortSlice scopeLess (order (scopeEntries.map Prod.fst))).map
        (fun scope => { ScopeName := scope, Entries := (mapGet scopeEntries scope).getD [] }) := by
  unfold scopeList mapKeys
  simp only [foldl_append_singleton, List.nil_append]

theorem scopeList_names (order : List String → List String)
    (scopeEntries : List (String × List ChangelogEntry)) :
    (scopeList order scopeEntries).map ScopeEntries.ScopeName =
      sortSlice scopeLess (order (scopeEntries.map Prod.fst)) := by
  rw [scopeList_eq, List.map_map]
  simp [Function.comp_def]

/-- The scopes of one type come out in non-decreasing order of `ScopePriority[scope]`,
where a scope that is not in the table counts 0. -/
theorem scopeList_sorted (order : List String → List String)
    (scopeEntries : List (String × List ChangelogEntry)) :
    ((scopeList order scopeEntries).map ScopeEntries.ScopeName).Pairwise
      (fun a b => scopePriority a ≤ scopePriority b) := by
  rw [scopeList_names]
  exact sortSlice_sorted scopePriority _

theorem buildTypes_eq (order : String → List String → List String)
    (maps : List (String × List (String × List ChangelogEntry)))
    (h : (maps.map Prod.fst).Nodup) :
    buildTypes order maps = maps.map (fun ts => (ts.1, scopeList (order ts.1) ts.2)) := by
  unfold buildTypes
  have := foldl_mapSet_fresh (fun t se => scopeList (order t) se) maps [] (by simpa using h)
  simpa using this

theorem buildTypes_keys (order : String → List String → List String)
    (maps : List (String × List (String × List ChangelogEntry)))
    (h : (maps.map Prod.fst).Nodup) :
    (buildTypes order maps).map Prod.fst = maps.map Prod.fst := by
  rw [buildTypes_eq order maps h, List.map_map]
  simp [Function.comp_def]

theorem buildTypes_get (order : String → List String → List String)
    (maps : List (String × List (String × List ChangelogEntry)))
    (h : (maps.map Prod.fst).Nodup) (c : String) :
    mapGet (buildTypes order maps) c = (mapGet maps c).map (scopeList (order c)) := by
  rw [buildTypes_eq order maps h]
  exact mapGet_map maps (fun t se => scopeList (order t) se) c

/-! ## The document built by collect -/

theorem collect_ok (env : Env) (files : List DirEntry) (entries : List ChangelogEntry)
    (hdir : env.readDir = .ok files) (hall : enrichedAll env files = .ok entries) :
    collect env = .ok
      { System := env.system, Type_ := buildTypes env.order (entries.foldl addEntry []) } := by
  unfold collect
  rw [hdir]
  simp only [collectLoop_eq, hall]

/-- The function `collect` returns a document exactly when the listing can be read
and every step of the loop succeeds. -/
theorem collect_ok_iff (env : Env) (data : Data) :
    collect env = .ok data ↔
      ∃ files entries, env.readDir = .ok files ∧ enrichedAll env files = .ok entries ∧
        data = { System := env.system,
                 Type_ := buildTypes env.order (entries.foldl addEntry []) } := by
  constructor
  · intro h
    unfold collect at h
    cases hdir : env.readDir with
    | error err => rw [hdir] at h; exact absurd h (by simp)
    | ok files =>
      rw [hdir] at h
      simp only [collectLoop_eq] at h
      cases hall : enrichedAll env files with
      | error err => rw [hall] at h; exact absurd h (by simp)
      | ok entries =>
        rw [hall] at h
        simp only [Except.ok.injEq] at h
        exact ⟨files, entries, rfl, hall, h.symm⟩
  · rintro ⟨files, entries, hdir, hall, rfl⟩
    exact collect_ok env files entries hdir hall

theorem mem_scopeList (order : List String → List String)
    (hperm : ∀ l, (order l).Perm l)
    (scopeEntries : List (String × List ChangelogEntry)) (g : ScopeEntries) :
    g ∈ scopeList order scopeEntries ↔
      g.ScopeName ∈ scopeEntries.map Prod.fst ∧
        g.Entries = (mapGet scopeEntries g.ScopeName).getD [] := by
  rw [scopeList_eq, List.mem_map]
  constructor
  · rintro ⟨scope, hmem, rfl⟩
    refine ⟨?_, rfl⟩
    exact (List.Perm.mem_iff (hperm _)).mp ((List.Perm.mem_iff (sortSlice_perm _ _)).mp hmem)
  · rintro ⟨hmem, hent⟩
    refine ⟨g.ScopeName, ?_, ?_⟩
    · exact (List.Perm.mem_iff (sortSlice_perm _ _)).mpr ((List.Perm.mem_iff (hperm _)).mpr hmem)
    · cases g
      simp only at hent
      simp [hent]

theorem scopeList_nil (order : List String → List String) (hperm : ∀ l, (order l).Perm l) :
    scopeList order [] = [] := by
  rw [scopeList_eq]
  have : order [] = [] := List.Perm.eq_nil (hperm [])
  simp [this, sortSlice]

theorem groups_eq (order : String → List String → List String)
    (hperm : ∀ t l, (order t l).Perm l)
    (maps : List (String × List (String × List ChangelogEntry)))
    (h : (maps.map Prod.fst).Nodup) (c : String) :
    (mapGet (buildTypes order maps) c).getD [] =
      scopeList (order c) ((mapGet maps c).getD []) := by
  rw [buildTypes_get order maps h]
  cases mapGet maps c with
  | none => simp [scopeList_nil (order c) (hperm c)]
  | some se => rfl

/-- C5: when `collect` has consumed the enriched fragments `entries` in listing order,
each type occurs once among the keys of the document and is a key exactly when some
fragment has it; under a type `c` no scope name occurs twice, there is a ScopeEntries
named `s` exactly when some fragment has type `c` and scope `s`, and its Entries are
the fragments with type `c` and scope `s` in the order of `entries`. -/
theorem collect_groups (env : Env) (files : List DirEntry) (entries : List ChangelogEntry)
    (hperm : ∀ t l, (env.order t l).Perm l)
    (hdir : env.readDir = .ok files) (hall : enrichedAll env files = .ok entries) :
    ∃ data, collect env = .ok data ∧
      (data.Type_.map Prod.fst).Nodup ∧
      ∀ c s,
        (c ∈ data.Type_.map Prod.fst ↔ ∃ e ∈ entries, e.Type_ = c) ∧
        (((mapGet data.Type_ c).getD []).map ScopeEntries.ScopeName).Nodup ∧
        ((∃ g ∈ (mapGet data.Type_ c).getD [], g.ScopeName = s) ↔
          ∃ e ∈ entries, e.Type_ = c ∧ e.Scope = s) ∧
        ∀ g ∈ (mapGet data.Type_ c).getD [], g.ScopeName = s →
          g.Entries = entries.filter (fun e => decide (e.Type_ = c ∧ e.Scope = s)) := by
  have hg : Grouped entries (entries.foldl addEntry []) := by
    simpa using grouped_foldl entries [] [] grouped_nil
  refine ⟨_, collect_ok env files entries hdir hall, ?_, ?_⟩
  · simp only [buildTypes_keys env.order _ hg.keys_nodup]
    exact hg.keys_nodup
  · intro c s
    simp only [buildTypes_keys env.order _ hg.keys_nodup,
      groups_eq env.order hperm _ hg.keys_nodup c]
    refine ⟨hg.key_iff c, ?_, ?_, ?_⟩
    · rw [scopeList_names]
      exact (List.Perm.nodup_iff ((sortSlice_perm _ _).trans (hperm c _))).mpr (hg.inner_nodup c)
    · rw [← hg.inner_key_iff c s]
      constructor
      · rintro ⟨g, hmem, rfl⟩
        exact ((mem_scopeList _ (hperm c) _ g).mp hmem).1
      · intro hmem
        exact ⟨{ ScopeName := s, Entries := (mapGet ((mapGet (entries.foldl addEntry []) c).getD []) s).getD [] },
          (mem_scopeList _ (hperm c) _ _).mpr ⟨hmem, rfl⟩, rfl⟩
    · intro g hmem hs
      rw [((mem_scopeList _ (hperm c) _ g).mp hmem).2, hs]
      exact hg.bucket c s

/-- The statement of C5 at the sample run of four fragments. -/
theorem collect_groups_witness :
    (∀ (t : String) (l : List String), ((sampleEnv sampleFiles (fun _ l => l)).order t l).Perm l) ∧
    (sampleEnv sampleFiles (fun _ l => l)).readDir = .ok sampleFiles ∧
    enrichedAll (sampleEnv sampleFiles (fun _ l => l)) sampleFiles
      = .ok [sampleEnriched "Plugin", sampleEnriched "Core", sampleEnriched "Unknown",
             sampleEnriched "Performance"] ∧
    ∃ data, collect (sampleEnv sampleFiles (fun _ l => l)) = .ok data ∧
      (data.Type_.map Prod.fst).Nodup ∧
      ∀ c s,
        (c ∈ data.Type_.map Prod.fst ↔
          ∃ e ∈ [sampleEnriched "Plugin", sampleEnriched "Core", sampleEnriched "Unknown",
                 sampleEnriched "Performance"], e.Type_ = c) ∧
        (((mapGet data.Type_ c).getD []).map ScopeEntries.ScopeName).Nodup ∧
        ((∃ g ∈ (mapGet data.Type_ c).getD [], g.ScopeName = s) ↔
          ∃ e ∈ [sampleEnriched "Plugin", sampleEnriched "Core", sampleEnriched "Unknown",
                 sampleEnriched "Performance"], e.Type_ = c ∧ e.Scope = s) ∧
        ∀ g ∈ (mapGet data.Type_ c).getD [], g.ScopeName = s →
          g.Entries =
            [sampleEnriched "Plugin", sampleEnriched "Core", sampleEnriched "Unknown",
             sampleEnriched "Performance"].filter (fun e => decide (e.Type_ = c ∧ e.Scope = s)) :=
  ⟨fun _ l => List.Perm.refl l, rfl, rfl,
    collect_groups (sampleEnv sampleFiles (fun _ l => l)) sampleFiles _
      (fun _ l => List.Perm.refl l) rfl rfl⟩

theorem enrichedAll_mem (env : Env) (file : DirEntry) (e : ChangelogEntry) :
    ∀ (files : List DirEntry) (entries : List ChangelogEntry),
      enrichedAll env files = .ok entries → file ∈ files →
      (∃ o, enrichedOf env file = .ok o) ∧ (enrichedOf env file = .ok (some e) → e ∈ entries) := by
  intro files
  induction files with
  | nil => intro entries _ hmem; exact absurd hmem (by simp)
  | cons f fs ih =>
    intro entries hall hmem
    rw [enrichedAll] at hall
    cases h1 : enrichedOf env f with
    | error err => rw [h1] at hall; exact absurd hall (by simp)
    | ok o =>
      rw [h1] at hall
      cases o with
      | none =>
        simp only at hall
        rcases List.mem_cons.mp hmem with hf | hf
        · subst hf
          exact ⟨⟨none, h1⟩, fun h2 => by rw [h1] at h2; exact absurd h2 (by simp)⟩
        · exact ih entries hall hf
      | some e1 =>
        simp only at hall
        cases h2 : enrichedAll env fs with
        | error err => rw [h2] at hall; exact absurd hall (by simp)
        | ok es =>
          rw [h2] at hall
          simp only [Except.ok.injEq] at hall
          subst hall
          rcases List.mem_cons.mp hmem with hf | hf
          · subst hf
            refine ⟨⟨some e1, h1⟩, fun h3 => ?_⟩
            rw [h1] at h3
            simp only [Except.ok.injEq, Option.some.injEq] at h3
            simp [h3]
          · obtain ⟨h3, h4⟩ := ih es h2 hf
            exact ⟨h3, fun h5 => List.mem_cons_of_mem _ (h4 h5)⟩

theorem processEntry_ok_inv (repo : String) (fetch : String → Except String CommitContext)
    (filename : String) (entry e : ChangelogEntry)
    (h : processEntry repo fetch filename entry = .ok e) :
    e.Scope = (if entry.Scope = "" then "Default" else entry.Scope) ∧ e.Type_ = entry.Type_ := by
  cases hf : fetch filename with
  | error err => rw [processEntry_error repo fetch filename entry err hf] at h; exact absurd h (by simp)
  | ok ctx =>
    rw [processEntry_ok repo fetch filename entry ctx hf] at h
    simp only [Except.ok.injEq] at h
    subst h
    exact ⟨rfl, rfl⟩

/-- Where the document holds an entry that `collect` has filed. -/
theorem document_spec (order : String → List String → List String)
    (hperm : ∀ t l, (order t l).Perm l) (entries : List ChangelogEntry) :
    (∀ c groups, mapGet (buildTypes order (entries.foldl addEntry [])) c = some groups →
      ∀ g ∈ groups,
        g.Entries = entries.filter (fun e => decide (e.Type_ = c ∧ e.Scope = g.ScopeName))) ∧
    (∀ e ∈ entries, ∃ groups g,
      mapGet (buildTypes order (entries.foldl addEntry [])) e.Type_ = some groups ∧
        g ∈ groups ∧ g.ScopeName = e.Scope) := by
  have hg : Grouped entries (entries.foldl addEntry []) := by
    simpa using grouped_foldl entries [] [] grouped_nil
  constructor
  · intro c groups hget g hmem
    have h1 := groups_eq order hperm _ hg.keys_nodup c
    rw [hget] at h1
    simp only [Option.getD_some] at h1
    rw [h1] at hmem
    rw [((mem_scopeList _ (hperm c) _ g).mp hmem).2]
    exact hg.bucket c g.ScopeName
  · intro e he
    have hkey : e.Type_ ∈ (entries.foldl addEntry []).map Prod.fst :=
      (hg.key_iff e.Type_).mpr ⟨e, he, rfl⟩
    have h1 := groups_eq order hperm _ hg.keys_nodup e.Type_
    cases hget : mapGet (buildTypes order (entries.foldl addEntry [])) e.Type_ with
    | none =>
      rw [buildTypes_get order _ hg.keys_nodup] at hget
      have : mapGet (entries.foldl addEntry []) e.Type_ = none := by
        cases hm : mapGet (entries.foldl addEntry []) e.Type_ with
        | none => rfl
        | some se => rw [hm] at hget; exact absurd hget (by simp)
      exact absurd hkey ((mapGet_eq_none_iff _ _).mp this)
    | some groups =>
      rw [hget] at h1
      simp only [Option.getD_some] at h1
      refine ⟨groups, ScopeEntries.mk e.Scope
        ((mapGet ((mapGet (entries.foldl addEntry []) e.Type_).getD []) e.Scope).getD []),
        rfl, ?_, rfl⟩
      rw [h1]
      exact (mem_scopeList _ (hperm e.Type_) _ _).mpr
        ⟨(hg.inner_key_iff e.Type_ e.Scope).mpr ⟨e, he, rfl, rfl⟩, rfl⟩

/-- C6: after `processEntry` the scope is never empty, it is "Default" when the decoded
scope was empty and the decoded scope otherwise, and the type is left as decoded; and
when `collect` runs through, the fragment of every YAML file of the listing is in the
ScopeEntries of that name under the fragment's type, and in no ScopeEntries of another
name or under another type. -/
theorem scope_default_and_placement :
    (∀ (repo : String) (fetch : String → Except String CommitContext) (filename : String)
        (entry : ChangelogEntry) (ctx : CommitContext), fetch filename = .ok ctx →
      ∃ e, processEntry repo fetch filename entry = .ok e ∧ e.Scope ≠ "" ∧
        e.Scope = (if entry.Scope = "" then "Default" else entry.Scope) ∧
        e.Type_ = entry.Type_) ∧
    (∀ (env : Env) (files : List DirEntry) (entries : List ChangelogEntry),
      (∀ t l, (env.order t l).Perm l) → env.readDir = .ok files →
      enrichedAll env files = .ok entries →
      ∃ data, collect env = .ok data ∧
        ∀ (file : DirEntry) (content : String) (d : ChangelogEntry), file ∈ files →
          (file.IsDir || !isYAML file.Name) = false →
          env.readFile file.Name = .ok content → env.unmarshal content = .ok d →
          ∃ e groups g, processEntry env.repo env.fetch file.Name d = .ok e ∧
            e.Scope = (if d.Scope = "" then "Default" else d.Scope) ∧
            mapGet data.Type_ d.Type_ = some groups ∧ g ∈ groups ∧
            g.ScopeName = e.Scope ∧ e ∈ g.Entries ∧
            ∀ c groups1 g1, mapGet data.Type_ c = some groups1 → g1 ∈ groups1 →
              e ∈ g1.Entries → c = d.Type_ ∧ g1.ScopeName = e.Scope) := by
  constructor
  · intro repo fetch filename entry ctx h
    refine ⟨_, processEntry_ok repo fetch filename entry ctx h, ?_, rfl, rfl⟩
    by_cases hs : entry.Scope = ""
    · show (if entry.Scope = "" then "Default" else entry.Scope) ≠ ""
      rw [if_pos hs]; decide
    · show (if entry.Scope = "" then "Default" else entry.Scope) ≠ ""
      rw [if_neg hs]; exact hs
  · intro env files entries hperm hdir hall
    refine ⟨_, collect_ok env files entries hdir hall, ?_⟩
    intro file content d hfile hyaml hread hdec
    obtain ⟨⟨o, ho⟩, hmem⟩ := enrichedAll_mem env file
      (match processEntry env.repo env.fetch file.Name d with
        | .ok e => e
        | .error _ => d) files entries hall hfile
    have hof : enrichedOf env file =
        match processEntry env.repo env.fetch file.Name d with
        | .error err => .error ("fialed to process entry: " ++ err)
        | .ok entry1 => .ok (some entry1) := by
      unfold enrichedOf
      rw [if_neg (by simp [hyaml]), hread]
      simp only [hdec]
    cases hp : processEntry env.repo env.fetch file.Name d with
    | error err => rw [hof, hp] at ho; exact absurd ho (by simp)
    | ok e =>
      rw [hp] at hmem hof
      have he : e ∈ entries := hmem hof
      obtain ⟨hscope, htype⟩ := processEntry_ok_inv _ _ _ _ _ hp
      obtain ⟨hdoc1, hdoc2⟩ := document_spec env.order hperm entries
      obtain ⟨groups, g, hget, hgmem, hname⟩ := hdoc2 e he
      refine ⟨e, groups, g, rfl, hscope, htype ▸ hget, hgmem, hname, ?_, ?_⟩
      · rw [hdoc1 _ groups hget g hgmem, List.mem_filter]
        exact ⟨he, by simp [hname]⟩
      · intro c groups1 g1 hget1 hg1 hin
        rw [hdoc1 c groups1 hget1 g1 hg1, List.mem_filter] at hin
        have := hin.2
        simp only [decide_eq_true_eq] at this
        exact ⟨by rw [← htype, this.1], this.2.symm⟩

/-- The statement of C6 at a fragment without scope and at the sample run. -/
theorem scope_default_and_placement_witness :
    (∃ e, processEntry "Kong/kong" sampleFetch "a.yml" bareEntry = .ok e ∧ e.Scope ≠ "" ∧
        e.Scope = (if bareEntry.Scope = "" then "Default" else bareEntry.Scope) ∧
        e.Type_ = bareEntry.Type_) ∧
    (∃ data, collect (sampleEnv sampleFiles (fun _ l => l)) = .ok data ∧
        ∀ (file : DirEntry) (content : String) (d : ChangelogEntry), file ∈ sampleFiles →
          (file.IsDir || !isYAML file.Name) = false →
          (sampleEnv sampleFiles (fun _ l => l)).readFile file.Name = .ok content →
          (sampleEnv sampleFiles (fun _ l => l)).unmarshal content = .ok d →
          ∃ e groups g, processEntry "Kong/kong" sampleFetch file.Name d = .ok e ∧
            e.Scope = (if d.Scope = "" then "Default" else d.Scope) ∧
            mapGet data.Type_ d.Type_ = some groups ∧ g ∈ groups ∧
            g.ScopeName = e.Scope ∧ e ∈ g.Entries ∧
            ∀ c groups1 g1, mapGet data.Type_ c = some groups1 → g1 ∈ groups1 →
              e ∈ g1.Entries → c = d.Type_ ∧ g1.ScopeName = e.Scope) :=
  ⟨scope_default_and_placement.1 "Kong/kong" sampleFetch "a.yml" bareEntry sampleCtx rfl,
    scope_default_and_placement.2 (sampleEnv sampleFiles (fun _ l => l)) sampleFiles
      [sampleEnriched "Plugin", sampleEnriched "Core", sampleEnriched "Unknown",
        sampleEnriched "Performance"] (fun _ l => List.Perm.refl l) rfl rfl⟩

/-! ## The order of the scopes -/

theorem mapGet_of_mem {V : Type} (m : List (String × V)) (h : (m.map Prod.fst).Nodup)
    (k : String) (v : V) (hm : (k, v) ∈ m) : mapGet m k = some v := by
  induction m with
  | nil => exact absurd hm (by simp)
  | cons kv rest ih =>
    obtain ⟨k0, v0⟩ := kv
    simp only [List.map_cons, List.nodup_cons] at h
    rcases List.mem_cons.mp hm with e | e
    · simp only [Prod.mk.injEq] at e
      simp [mapGet, e.1, e.2]
    · have hk : k ∈ rest.map Prod.fst := List.mem_map.mpr ⟨(k, v), e, rfl⟩
      have h0 : ¬ k0 = k := fun e0 => h.1 (e0 ▸ hk)
      simp [mapGet, h0, ih h.2 e]

theorem enrichedAll_order (env : Env) (order2 : String → List String → List String)
    (files : List DirEntry) :
    enrichedAll { env with order := order2 } files = enrichedAll env files := by
  induction files with
  | nil => rfl
  | cons f fs ih =>
    have h1 : enrichedOf { env with order := order2 } f = enrichedOf env f := rfl
    rw [enrichedAll, enrichedAll, h1, ih]

theorem sortSlice_scopes_unique (ks1 ks2 : List String) (hp : ks1.Perm ks2)
    (hties : ∀ a ∈ ks1, ∀ b ∈ ks1, scopePriority a = scopePriority b → a = b) :
    sortSlice scopeLess ks1 = sortSlice scopeLess ks2 := by
  have p1 := sortSlice_perm scopeLess ks1
  have p2 := sortSlice_perm scopeLess ks2
  refine sorted_perm_unique scopePriority _ _ (p1.trans (hp.trans p2.symm))
    (sortSlice_sorted scopePriority ks1) (sortSlice_sorted scopePriority ks2) ?_
  intro a ha b hb
  exact hties a ((List.Perm.mem_iff p1).mp ha) b ((List.Perm.mem_iff p1).mp hb)

/-- C1, the code at the example of the claim: whatever order `range` visits the keys
in, the four subsystems Plugin, Core, Unknown, Performance of one type come out as
Unknown, Performance, Core, Plugin. The name that is not in `ScopePriority` reads as
priority 0 and is placed first, where the claim has it last at priority 100. -/
theorem unlisted_scope_sorts_first (order : String → List String → List String)
    (hperm : ∀ t l, (order t l).Perm l) :
    scopePriority "Unknown" = 0 ∧
    ∃ data, collect (sampleEnv sampleFiles order) = .ok data ∧
      ((mapGet data.Type_ "bugfix").getD []).map ScopeEntries.ScopeName
        = ["Unknown", "Performance", "Core", "Plugin"] := by
  refine ⟨by decide, _, collect_ok (sampleEnv sampleFiles order) sampleFiles
    [sampleEnriched "Plugin", sampleEnriched "Core", sampleEnriched "Unknown",
      sampleEnriched "Performance"] rfl rfl, ?_⟩
  have hmaps : List.foldl addEntry []
      [sampleEnriched "Plugin", sampleEnriched "Core", sampleEnriched "Unknown",
        sampleEnriched "Performance"]
      = [("bugfix", [("Plugin", [sampleEnriched "Plugin"]), ("Core", [sampleEnriched "Core"]),
          ("Unknown", [sampleEnriched "Unknown"]),
          ("Performance", [sampleEnriched "Performance"])])] := by decide
  have hkeys : ((sampleEnv sampleFiles order).order "bugfix"
      ["Plugin", "Core", "Unknown", "Performance"]).Perm
      ["Plugin", "Core", "Unknown", "Performance"] := hperm _ _
  have hperm1 : ∀ t l, ((sampleEnv sampleFiles order).order t l).Perm l := hperm
  simp only [hmaps]
  rw [groups_eq (sampleEnv sampleFiles order).order hperm1 _ (by decide), scopeList_names]
  have hget : (mapGet [("bugfix", [("Plugin", [sampleEnriched "Plugin"]),
      ("Core", [sampleEnriched "Core"]), ("Unknown", [sampleEnriched "Unknown"]),
      ("Performance", [sampleEnriched "Performance"])])] "bugfix").getD []
      = [("Plugin", [sampleEnriched "Plugin"]), ("Core", [sampleEnriched "Core"]),
        ("Unknown", [sampleEnriched "Unknown"]),
        ("Performance", [sampleEnriched "Performance"])] := by decide
  rw [hget]
  have p1 := sortSlice_perm scopeLess ((sampleEnv sampleFiles order).order "bugfix"
    (List.map Prod.fst [("Plugin", [sampleEnriched "Plugin"]),
      ("Core", [sampleEnriched "Core"]), ("Unknown", [sampleEnriched "Unknown"]),
      ("Performance", [sampleEnriched "Performance"])]))
  have p2 : (sortSlice scopeLess ((sampleEnv sampleFiles order).order "bugfix"
      (List.map Prod.fst [("Plugin", [sampleEnriched "Plugin"]),
        ("Core", [sampleEnriched "Core"]), ("Unknown", [sampleEnriched "Unknown"]),
        ("Performance", [sampleEnriched "Performance"])]))).Perm
      ["Plugin", "Core", "Unknown", "Performance"] := p1.trans hkeys
  refine sorted_perm_unique scopePriority _ _ (p2.trans (by decide))
    (sortSlice_sorted scopePriority _) (by decide) ?_
  intro a ha b hb
  have ha1 := (List.Perm.mem_iff p2).mp ha
  have hb1 := (List.Perm.mem_iff p2).mp hb
  simp only [List.mem_cons, List.mem_singleton, List.not_mem_nil, or_false] at ha1 hb1
  rcases ha1 with rfl | rfl | rfl | rfl <;> rcases hb1 with rfl | rfl | rfl | rfl <;> decide

/-- The evaluation for C1 when the keys are visited in reverse order. -/
theorem unlisted_scope_sorts_first_witness :
    (∀ (t : String) (l : List String), ((fun _ l => l.reverse : String → List String → List String) t l).Perm l) ∧
    scopePriority "Unknown" = 0 ∧
    ∃ data, collect (sampleEnv sampleFiles (fun _ l => l.reverse)) = .ok data ∧
      ((mapGet data.Type_ "bugfix").getD []).map ScopeEntries.ScopeName
        = ["Unknown", "Performance", "Core", "Plugin"] :=
  ⟨fun _ l => List.reverse_perm l,
    unlisted_scope_sorts_first (fun _ l => l.reverse) (fun _ l => List.reverse_perm l)⟩

/-- C10, against the claim as stated: two subsystems that are not in `ScopePriority`
tie at priority 0, and the two enumerations of the same two keys are sorted into
different sequences; so the same two fragments give two different documents. -/
theorem tied_scopes_follow_enumeration :
    (["Unknown", "Other"] : List String).Perm ["Other", "Unknown"] ∧
    sortSlice scopeLess ["Unknown", "Other"] = ["Unknown", "Other"] ∧
    sortSlice scopeLess ["Other", "Unknown"] = ["Other", "Unknown"] ∧
    ∃ d1 d2, collect (sampleEnv tiedFiles (fun _ l => l)) = .ok d1 ∧
      collect (sampleEnv tiedFiles (fun _ l => l.reverse)) = .ok d2 ∧
      ((mapGet d1.Type_ "bugfix").getD []).map ScopeEntries.ScopeName = ["Unknown", "Other"] ∧
      ((mapGet d2.Type_ "bugfix").getD []).map ScopeEntries.ScopeName = ["Other", "Unknown"] :=
  ⟨by decide, by decide, by decide, _, _, rfl, rfl, by decide, by decide⟩

/-- C10 as amended: when no two subsystems of one type share a priority (the value in
`ScopePriority`, 0 for a name that is not in it), the document that `collect` builds
from the fragments in listing order does not depend on the order in which `mapKeys`
enumerates the keys: any two permutations of such a key list are sorted into the same
sequence, which is the only arrangement of the keys in non-decreasing priority. -/
theorem scope_order_fixed_without_ties :
    (∀ ks1 ks2 : List String, ks1.Perm ks2 →
      (∀ a ∈ ks1, ∀ b ∈ ks1, scopePriority a = scopePriority b → a = b) →
      sortSlice scopeLess ks1 = sortSlice scopeLess ks2) ∧
    (∀ ks out1 out2 : List String, out1.Perm ks → out2.Perm ks →
      out1.Pairwise (fun a b => scopePriority a ≤ scopePriority b) →
      out2.Pairwise (fun a b => scopePriority a ≤ scopePriority b) →
      (∀ a ∈ ks, ∀ b ∈ ks, scopePriority a = scopePriority b → a = b) → out1 = out2) ∧
    (∀ (env : Env) (order2 : String → List String → List String) (files : List DirEntry)
        (entries : List ChangelogEntry),
      (∀ t l, (env.order t l).Perm l) → (∀ t l, (order2 t l).Perm l) →
      env.readDir = .ok files → enrichedAll env files = .ok entries →
      (∀ e1 ∈ entries, ∀ e2 ∈ entries, e1.Type_ = e2.Type_ →
        scopePriority e1.Scope = scopePriority e2.Scope → e1.Scope = e2.Scope) →
      ∃ data, collect env = .ok data ∧ collect { env with order := order2 } = .ok data) := by
  refine ⟨sortSlice_scopes_unique, ?_, ?_⟩
  · intro ks out1 out2 p1 p2 s1 s2 hties
    exact sorted_perm_unique scopePriority out1 out2 (p1.trans p2.symm) s1 s2
      (fun a ha b hb => hties a ((List.Perm.mem_iff p1).mp ha) b ((List.Perm.mem_iff p1).mp hb))
  intro env order2 files entries hperm1 hperm2 hdir hall hties
  have hg : Grouped entries (entries.foldl addEntry []) := by
    simpa using grouped_foldl entries [] [] grouped_nil
  have hall2 : enrichedAll { env with order := order2 } files = .ok entries := by
    rw [enrichedAll_order, hall]
  refine ⟨_, collect_ok env files entries hdir hall, ?_⟩
  rw [collect_ok { env with order := order2 } files entries hdir hall2]
  simp only [Except.ok.injEq, Data.mk.injEq, true_and]
  rw [buildTypes_eq _ _ hg.keys_nodup, buildTypes_eq _ _ hg.keys_nodup]
  apply List.map_congr_left
  intro ts hts
  obtain ⟨t, se⟩ := ts
  have hget := mapGet_of_mem _ hg.keys_nodup t se hts
  simp only [Prod.mk.injEq, true_and]
  rw [scopeList_eq, scopeList_eq]
  congr 1
  apply sortSlice_scopes_unique _ _ ((hperm2 t _).trans (hperm1 t _).symm)
  intro a ha b hb hab
  have ha1 := (List.Perm.mem_iff (hperm2 t _)).mp ha
  have hb1 := (List.Perm.mem_iff (hperm2 t _)).mp hb
  have hi := hg.inner_key_iff t
  rw [hget] at hi
  simp only [Option.getD_some] at hi
  obtain ⟨e1, he1, ht1, hs1⟩ := (hi a).mp ha1
  obtain ⟨e2, he2, ht2, hs2⟩ := (hi b).mp hb1
  rw [← hs1, ← hs2]
  exact hties e1 he1 e2 he2 (ht1.trans ht2.symm) (by rw [hs1, hs2]; exact hab)

/-- The amended statement of C10 at the four subsystems of the sample run. -/
theorem scope_order_fixed_without_ties_witness :
    (["Plugin", "Core", "Unknown", "Performance"] : List String).Perm
      ["Performance", "Unknown", "Core", "Plugin"] ∧
    sortSlice scopeLess ["Plugin", "Core", "Unknown", "Performance"]
      = sortSlice scopeLess ["Performance", "Unknown", "Core", "Plugin"] ∧
    ∃ data, collect (sampleEnv sampleFiles (fun _ l => l)) = .ok data ∧
      collect { sampleEnv sampleFiles (fun _ l => l) with order := fun _ l => l.reverse }
        = .ok data :=
  ⟨by decide,
    scope_order_fixed_without_ties.1 ["Plugin", "Core", "Unknown", "Performance"]
      ["Performance", "Unknown", "Core", "Plugin"] (by decide) (by decide),
    scope_order_fixed_without_ties.2.2 (sampleEnv sampleFiles (fun _ l => l))
      (fun _ l => l.reverse) sampleFiles
      [sampleEnriched "Plugin", sampleEnriched "Core", sampleEnriched "Unknown",
        sampleEnriched "Performance"]
      (fun _ l => List.Perm.refl l) (fun _ l => List.reverse_perm l) rfl rfl (by decide)⟩

/-! ## The helper dict -/

theorem setPath_ne_call : ∀ (path : List String) (m : List (String × Value)) (v : Value),
    setPath m path v ≠ .error (.err "invalid dictionary call") := by
  intro path
  induction path with
  | nil => intro m v; simp [setPath]
  | cons k rest ih =>
    intro m v
    cases rest with
    | nil => simp [setPath]
    | cons k2 rest2 =>
      rw [setPath]
      cases hk : mapGet m k with
      | none =>
        simp only
        cases h1 : setPath [] (k2 :: rest2) v with
        | ok m1 => simp
        | error e =>
          simp only [ne_eq, Except.error.injEq]
          intro he
          exact ih [] v (by rw [h1, he])
      | some x =>
        cases x with
        | map sub =>
          simp only
          cases h1 : setPath sub (k2 :: rest2) v with
          | ok m1 => simp
          | error e =>
            simp only [ne_eq, Except.error.injEq]
            intro he
            exact ih sub v (by rw [h1, he])
        | int n => simp
        | str s => simp
        | strs l => simp
        | other t => simp

theorem dictLoop_ne_call_aux (n : Nat) : ∀ (values : List Value) (root : List (String × Value)),
    values.length ≤ n → dictLoop values root ≠ .error (.err "invalid dictionary call") := by
  induction n with
  | zero =>
    intro values root hn
    have : values = [] := List.length_eq_zero.mp (by omega)
    subst this
    simp [dictLoop]
  | succ n ih =>
    intro values root hn
    match values, hn with
    | [], _ => simp [dictLoop]
    | [_], _ => simp [dictLoop]
    | k :: v :: rest, hn =>
      rw [dictLoop]
      cases hp : dictPair root k v with
      | ok root1 =>
        simp only
        exact ih rest root1 (by simp only [List.length_cons] at hn; omega)
      | error e =>
        simp only [ne_eq, Except.error.injEq]
        intro he
        subst he
        cases k with
        | str key => simp [dictPair] at hp
        | strs path => exact setPath_ne_call path root v (by simpa [dictPair] using hp)
        | int n => simp [dictPair] at hp
        | map m => simp [dictPair] at hp
        | other t => simp [dictPair] at hp

theorem dict_arity (values : List Value) :
    dict values = .error (.err "invalid dictionary call") ↔ values.length % 2 ≠ 0 := by
  unfold dict
  by_cases hodd : values.length % 2 ≠ 0
  · rw [if_pos hodd]
    simp [hodd]
  · rw [if_neg hodd]
    simp only [hodd, iff_false]
    exact dictLoop_ne_call_aux values.length values [] (Nat.le_refl _)

/-- C7, the code at inputs of even length: a key that is an empty sequence of strings
makes `dict` fault (index out of range) instead of returning a mapping; so does a key
path that runs into a value that is no mapping; and the fault comes before the key
error when a later key is neither a string nor a sequence of strings. -/
theorem dict_faults :
    dict [.strs [], .int 1] = .error (.fault "index out of range [-1]") ∧
    dict [.str "a", .int 1, .strs ["a", "b"], .int 2]
      = .error (.fault "type assertion to map[string]any failed") ∧
    dict [.strs [], .int 1, .int 5, .int 2] = .error (.fault "index out of range [-1]") ∧
    keyPath (.strs []) = some [] ∧ keyPath (.int 5) = none :=
  ⟨rfl, rfl, rfl, rfl, rfl⟩

/-! ## Paths through nested mappings -/

theorem lookupPath_empty (q : List String) : lookupPath [] q = none := by
  match q with
  | [] => rfl
  | [_] => rfl
  | _ :: _ :: _ => rfl

theorem lookupPath_cons_map (m sub : List (String × Value)) (k : String) (q : List String)
    (hq : q ≠ []) (h : mapGet m k = some (.map sub)) :
    lookupPath m (k :: q) = lookupPath sub q := by
  cases q with
  | nil => exact absurd rfl hq
  | cons k2 rest => rw [lookupPath, h]

theorem lookupPath_cons_some (m : List (String × Value)) (k : String) (q : List String)
    (x : Value) (hq : q ≠ []) (h : lookupPath m (k :: q) = some x) :
    ∃ sub, mapGet m k = some (.map sub) ∧ lookupPath sub q = some x := by
  cases q with
  | nil => exact absurd rfl hq
  | cons k2 rest =>
    rw [lookupPath] at h
    cases hk : mapGet m k with
    | none => rw [hk] at h; exact absurd h (by simp)
    | some y =>
      rw [hk] at h
      cases y with
      | map sub => exact ⟨sub, rfl, h⟩
      | int n => exact absurd h (by simp)
      | str t => exact absurd h (by simp)
      | strs l => exact absurd h (by simp)
      | other t => exact absurd h (by simp)

/-- A path that leads to a value passes through a nested mapping at each of its proper
leading parts, and the rest of the path leads to the value from there. -/
theorem lookupPath_split : ∀ (q r : List String) (m : List (String × Value)) (x : Value),
    q ≠ [] → r ≠ [] → lookupPath m (q ++ r) = some x →
    ∃ sub, lookupPath m q = some (.map sub) ∧ lookupPath sub r = some x := by
  intro q
  induction q with
  | nil => intro r m x hq; exact absurd rfl hq
  | cons k qs ih =>
    intro r m x _ hr h
    cases qs with
    | nil =>
      obtain ⟨sub, hk, hsub⟩ := lookupPath_cons_some m k r x hr h
      exact ⟨sub, by rw [lookupPath]; exact hk, hsub⟩
    | cons k2 qs2 =>
      obtain ⟨sub0, hk, hsub⟩ := lookupPath_cons_some m k (k2 :: qs2 ++ r) x (by simp) h
      obtain ⟨sub, h1, h2⟩ := ih r sub0 x (by simp) hr hsub
      exact ⟨sub, by rw [lookupPath_cons_map m sub0 k _ (by simp) hk]; exact h1, h2⟩

theorem setPath_cons_ok (m m1 : List (String × Value)) (k k2 : String) (rest : List String)
    (v : Value) (h : setPath m (k :: k2 :: rest) v = .ok m1) :
    ∃ sub sub1, (mapGet m k = some (.map sub) ∨ (mapGet m k = none ∧ sub = [])) ∧
      setPath sub (k2 :: rest) v = .ok sub1 ∧ m1 = mapSet m k (.map sub1) := by
  rw [setPath] at h
  cases hk : mapGet m k with
  | none =>
    rw [hk] at h
    simp only at h
    cases h1 : setPath [] (k2 :: rest) v with
    | error e => rw [h1] at h; exact absurd h (by simp)
    | ok sub1 =>
      rw [h1] at h
      simp only [Except.ok.injEq] at h
      exact ⟨[], sub1, Or.inr ⟨rfl, rfl⟩, h1, h.symm⟩
  | some y =>
    rw [hk] at h
    cases y with
    | map sub =>
      simp only at h
      cases h1 : setPath sub (k2 :: rest) v with
      | error e => rw [h1] at h; exact absurd h (by simp)
      | ok sub1 =>
        rw [h1] at h
        simp only [Except.ok.injEq] at h
        exact ⟨sub, sub1, Or.inl rfl, h1, h.symm⟩
    | int n => exact absurd h (by simp)
    | str t => exact absurd h (by simp)
    | strs l => exact absurd h (by simp)
    | other t => exact absurd h (by simp)

theorem lookupPath_setPath_same : ∀ (path : List String) (m m1 : List (String × Value))
    (v : Value), setPath m path v = .ok m1 → lookupPath m1 path = some v := by
  intro path
  induction path with
  | nil => intro m m1 v h; simp [setPath] at h
  | cons k rest ih =>
    intro m m1 v h
    cases rest with
    | nil =>
      simp only [setPath, Except.ok.injEq] at h
      subst h
      rw [lookupPath, mapGet_mapSet]
      simp
    | cons k2 rest2 =>
      obtain ⟨sub, sub1, _, hs, rfl⟩ := setPath_cons_ok m m1 k k2 rest2 v h
      rw [lookupPath_cons_map _ sub1 k _ (by simp) (by rw [mapGet_mapSet]; simp)]
      exact ih sub sub1 v hs

theorem lookupPath_head_ne (m m1 : List (String × Value)) (j : String) (q : List String)
    (h : mapGet m1 j = mapGet m j) : lookupPath m1 (j :: q) = lookupPath m (j :: q) := by
  cases q with
  | nil => rw [lookupPath, lookupPath, h]
  | cons j2 q2 => rw [lookupPath, lookupPath, h]

/-- Storing a value at a path leaves alone every path that neither starts with it nor
is a leading part of it. -/
theorem lookupPath_setPath_other : ∀ (path : List String) (m m1 : List (String × Value))
    (v : Value) (q : List String), setPath m path v = .ok m1 →
    ¬ StartsWith q path → ¬ StartsWith path q → lookupPath m1 q = lookupPath m q := by
  intro path
  induction path with
  | nil => intro m m1 v q h; simp [setPath] at h
  | cons k rest ih =>
    intro m m1 v q h hq1 hq2
    cases q with
    | nil => exact absurd ⟨k :: rest, rfl⟩ hq2
    | cons j qrest =>
      by_cases hj : k = j
      · subst hj
        cases rest with
        | nil => exact absurd ⟨qrest, rfl⟩ hq1
        | cons k2 rest2 =>
          obtain ⟨sub, sub1, hsub, hs, rfl⟩ := setPath_cons_ok m m1 k k2 rest2 v h
          have hne : qrest ≠ [] := by
            intro e
            subst e
            exact hq2 ⟨k2 :: rest2, rfl⟩
          have h1 : ¬ StartsWith qrest (k2 :: rest2) := by
            rintro ⟨r, hr⟩
            exact hq1 ⟨r, by rw [hr]; rfl⟩
          have h2 : ¬ StartsWith (k2 :: rest2) qrest := by
            rintro ⟨r, hr⟩
            exact hq2 ⟨r, by rw [hr]; rfl⟩
          rw [lookupPath_cons_map _ sub1 k qrest hne (by rw [mapGet_mapSet]; simp)]
          rw [ih sub sub1 v qrest hs h1 h2]
          rcases hsub with hsub | ⟨hnone, hnil⟩
          · rw [lookupPath_cons_map m sub k qrest hne hsub]
          · subst hnil
            rw [lookupPath_empty]
            cases qrest with
            | nil => exact absurd rfl hne
            | cons j2 q2 => rw [lookupPath, hnone]
      · have hget : ∀ x, mapGet (mapSet m k x) j = mapGet m j := by
          intro x
          rw [mapGet_mapSet, if_neg hj]
        cases rest with
        | nil =>
          simp only [setPath, Except.ok.injEq] at h
          subst h
          exact lookupPath_head_ne _ _ j qrest (hget v)
        | cons k2 rest2 =>
          obtain ⟨sub, sub1, _, _, rfl⟩ := setPath_cons_ok m m1 k k2 rest2 v h
          exact lookupPath_head_ne _ _ j qrest (hget _)

/-- Storing a value at a non-empty path succeeds when every proper leading part of the
path that is present in the mapping holds a nested mapping. -/
theorem setPath_ok_of_clear : ∀ (path : List String) (m : List (String × Value)) (v : Value),
    path ≠ [] →
    (∀ q r x, path = q ++ r → r ≠ [] → lookupPath m q = some x → ∃ sub, x = .map sub) →
    ∃ m1, setPath m path v = .ok m1 := by
  intro path
  induction path with
  | nil => intro m v h; exact absurd rfl h
  | cons k rest ih =>
    intro m v _ hclear
    cases rest with
    | nil => exact ⟨mapSet m k v, by simp [setPath]⟩
    | cons k2 rest2 =>
      rw [setPath]
      cases hk : mapGet m k with
      | none =>
        simp only
        obtain ⟨sub1, hs⟩ := ih [] v (by simp) (by
          intro q r x _ _ hx
          rw [lookupPath_empty] at hx
          exact absurd hx (by simp))
        rw [hs]
        exact ⟨_, rfl⟩
      | some y =>
        obtain ⟨sub, rfl⟩ := hclear [k] (k2 :: rest2) y rfl (by simp) (by rw [lookupPath]; exact hk)
        simp only
        obtain ⟨sub1, hs⟩ := ih sub v (by simp) (by
          intro q r x hqr hr hx
          have hq : q ≠ [] := by
            intro e
            subst e
            simp [lookupPath] at hx
          refine hclear (k :: q) r x (by rw [hqr]; rfl) hr ?_
          rw [lookupPath_cons_map m sub k q hq hk]
          exact hx)
        rw [hs]
        exact ⟨_, rfl⟩

theorem stored_nil : Stored [] [] where
  found := by intro pv h; exact absurd h (by simp)
  above := by
    intro q x h
    rw [lookupPath_empty] at h
    exact absurd h (by simp)

theorem stored_setPath (done : List (List String × Value)) (root : List (String × Value))
    (path : List String) (v : Value) (hs : Stored done root) (hp : path ≠ [])
    (hfree : ∀ pv ∈ done, ¬ StartsWith path pv.1 ∧ ¬ StartsWith pv.1 path) :
    ∃ root1, setPath root path v = .ok root1 ∧ Stored (done ++ [(path, v)]) root1 := by
  obtain ⟨root1, hset⟩ := setPath_ok_of_clear path root v hp (by
    intro q r x hqr _ hx
    rcases hs.above q x hx with ⟨pv, hpv, r1, hr1⟩ | hmap
    · exact absurd ⟨r1 ++ r, by rw [hqr, hr1, List.append_assoc]⟩ (hfree pv hpv).1
    · exact hmap)
  refine ⟨root1, hset, ?_, ?_⟩
  · intro pv hpv
    rcases List.mem_append.mp hpv with hpv | hpv
    · rw [lookupPath_setPath_other path root root1 v pv.1 hset (hfree pv hpv).2 (hfree pv hpv).1]
      exact hs.found pv hpv
    · simp only [List.mem_singleton] at hpv
      subst hpv
      exact lookupPath_setPath_same path root root1 v hset
  · intro q x hx
    by_cases h1 : StartsWith q path
    · exact Or.inl ⟨(path, v), by simp, h1⟩
    · by_cases h2 : StartsWith path q
      · obtain ⟨r, hr⟩ := h2
        have hq : q ≠ [] := by
          intro e
          subst e
          simp [lookupPath] at hx
        have hr0 : r ≠ [] := by
          intro e
          subst e
          exact h1 ⟨[], by simp [hr]⟩
        have hsame := lookupPath_setPath_same path root root1 v hset
        rw [hr] at hsame
        obtain ⟨sub, hsub, _⟩ := lookupPath_split q r root1 v hq hr0 hsame
        rw [hsub] at hx
        simp only [Option.some.injEq] at hx
        exact Or.inr ⟨sub, hx.symm⟩
      · rw [lookupPath_setPath_other path root root1 v q hset h1 h2] at hx
        rcases hs.above q x hx with ⟨pv, hpv, hst⟩ | hmap
        · exact Or.inl ⟨pv, by simp [hpv], hst⟩
        · exact Or.inr hmap

theorem dictPair_eq_setPath (root : List (String × Value)) (k v : Value)
    (path : List String) (h : keyPath k = some path) :
    dictPair root k v = setPath root path v ∨ path = [] := by
  cases k with
  | str key =>
    simp only [keyPath, Option.some.injEq] at h
    subst h
    exact Or.inl rfl
  | strs l =>
    simp only [keyPath, Option.some.injEq] at h
    subst h
    exact Or.inl rfl
  | int n => simp [keyPath] at h
  | map m => simp [keyPath] at h
  | other t => simp [keyPath] at h

theorem dictLoop_stored : ∀ (pairs : List (Value × Value))
    (done : List (List String × Value)) (root : List (String × Value)),
    Stored done root →
    (∀ kv ∈ pairs, ∃ path, keyPath kv.1 = some path ∧ path ≠ []) →
    (∀ kv ∈ pairs, ∀ path, keyPath kv.1 = some path →
      ∀ pv ∈ done, ¬ StartsWith path pv.1 ∧ ¬ StartsWith pv.1 path) →
    pairs.Pairwise (fun a b => ∀ p q, keyPath a.1 = some p → keyPath b.1 = some q →
      ¬ StartsWith p q ∧ ¬ StartsWith q p) →
    ∃ root1 done1, dictLoop (interleave pairs) root = .ok root1 ∧ Stored done1 root1 ∧
      (∀ pv ∈ done, pv ∈ done1) ∧
      ∀ kv ∈ pairs, ∀ path, keyPath kv.1 = some path → (path, kv.2) ∈ done1 := by
  intro pairs
  induction pairs with
  | nil =>
    intro done root hs _ _ _
    exact ⟨root, done, rfl, hs, fun _ h => h, fun kv hkv => absurd hkv (by simp)⟩
  | cons kv rest ih =>
    intro done root hs hkeys hdone hfree
    obtain ⟨path, hpath, hne⟩ := hkeys kv (by simp)
    rw [List.pairwise_cons] at hfree
    obtain ⟨root0, hset, hs0⟩ := stored_setPath done root path kv.2 hs hne
      (hdone kv (by simp) path hpath)
    have hpair : dictPair root kv.1 kv.2 = .ok root0 := by
      rcases dictPair_eq_setPath root kv.1 kv.2 path hpath with h | h
      · rw [h, hset]
      · exact absurd h hne
    obtain ⟨root1, done1, hloop, hs1, hmono, hall⟩ := ih (done ++ [(path, kv.2)]) root0 hs0
      (fun b hb => hkeys b (List.mem_cons_of_mem _ hb))
      (by
        intro b hb q hq pv hpv
        rcases List.mem_append.mp hpv with hpv | hpv
        · exact hdone b (List.mem_cons_of_mem _ hb) q hq pv hpv
        · simp only [List.mem_singleton] at hpv
          subst hpv
          have := hfree.1 b hb path q hpath hq
          exact ⟨this.2, this.1⟩)
      hfree.2
    refine ⟨root1, done1, ?_, hs1, ?_, ?_⟩
    · show dictLoop (kv.1 :: kv.2 :: interleave rest) root = .ok root1
      rw [dictLoop, hpair]
      exact hloop
    · intro pv hpv
      exact hmono pv (by simp [hpv])
    · intro b hb q hq
      rcases List.mem_cons.mp hb with e | e
      · subst e
        rw [hpath] at hq
        simp only [Option.some.injEq] at hq
        subst hq
        exact hmono _ (by simp)
      · exact hall b e q hq

theorem length_interleave (pairs : List (Value × Value)) :
    (interleave pairs).length = 2 * pairs.length := by
  induction pairs with
  | nil => rfl
  | cons kv rest ih => simp only [interleave, List.length_cons, ih]; omega

theorem interleave_of_even : ∀ (n : Nat) (values : List Value), values.length = 2 * n →
    ∃ pairs, values = interleave pairs := by
  intro n
  induction n with
  | zero =>
    intro values h
    have : values = [] := List.length_eq_zero.mp (by omega)
    exact ⟨[], this⟩
  | succ n ih =>
    intro values h
    match values, h with
    | k :: v :: rest, h =>
      obtain ⟨pairs, hp⟩ := ih rest (by simp only [List.length_cons] at h; omega)
      exact ⟨(k, v) :: pairs, by rw [hp]; rfl⟩

/-- C8: for (key, value) pairs whose keys are strings or non-empty sequences of strings,
with no key path equal to or a leading part of another, `dict` returns a mapping in
which the path of each key leads to the paired value (a string key being a path of
length one); at every proper leading part of a key path sits one nested mapping, from
which the rest of the path leads to the value, so that pairs sharing a leading part
are stored in the same nested mapping; and `dict(["a","b"], 1, "c", 2)` is the mapping
with `a` holding the mapping of `b` to 1 and `c` holding 2. -/
theorem dict_nested_lookup (pairs : List (Value × Value))
    (hkeys : ∀ kv ∈ pairs, ∃ path, keyPath kv.1 = some path ∧ path ≠ [])
    (hfree : pairs.Pairwise (fun a b => ∀ p q, keyPath a.1 = some p → keyPath b.1 = some q →
      ¬ StartsWith p q ∧ ¬ StartsWith q p)) :
    (∃ root, dict (interleave pairs) = .ok root ∧
      ∀ kv ∈ pairs, ∀ path, keyPath kv.1 = some path →
        lookupPath root path = some kv.2 ∧
        ∀ q r, path = q ++ r → q ≠ [] → r ≠ [] →
          ∃ sub, lookupPath root q = some (.map sub) ∧ lookupPath sub r = some kv.2) ∧
    dict [.strs ["a", "b"], .int 1, .str "c", .int 2]
      = .ok [("a", .map [("b", .int 1)]), ("c", .int 2)] := by
  refine ⟨?_, rfl⟩
  obtain ⟨root, done, hloop, hs, _, hall⟩ := dictLoop_stored pairs [] [] stored_nil hkeys
    (fun _ _ _ _ pv hpv => absurd hpv (by simp)) hfree
  refine ⟨root, ?_, ?_⟩
  · unfold dict
    rw [if_neg (by rw [length_interleave]; omega)]
    exact hloop
  · intro kv hkv path hpath
    have hfound : lookupPath root path = some kv.2 := hs.found _ (hall kv hkv path hpath)
    refine ⟨hfound, ?_⟩
    intro q r hqr hq hr
    rw [hqr] at hfound
    exact lookupPath_split q r root kv.2 hq hr hfound

/-- The statement of C8 at the example call of the specification. -/
theorem dict_nested_lookup_witness :
    (∀ kv ∈ samplePairs, ∃ path, keyPath kv.1 = some path ∧ path ≠ []) ∧
    samplePairs.Pairwise (fun a b => ∀ p q, keyPath a.1 = some p → keyPath b.1 = some q →
      ¬ StartsWith p q ∧ ¬ StartsWith q p) ∧
    (∃ root, dict (interleave samplePairs) = .ok root ∧
      ∀ kv ∈ samplePairs, ∀ path, keyPath kv.1 = some path →
        lookupPath root path = some kv.2 ∧
        ∀ q r, path = q ++ r → q ≠ [] → r ≠ [] →
          ∃ sub, lookupPath root q = some (.map sub) ∧ lookupPath sub r = some kv.2) ∧
    dict [.strs ["a", "b"], .int 1, .str "c", .int 2]
      = .ok [("a", .map [("b", .int 1)]), ("c", .int 2)] := by
  have hkeys : ∀ kv ∈ samplePairs, ∃ path, keyPath kv.1 = some path ∧ path ≠ [] := by
    intro kv hkv
    simp only [samplePairs, List.mem_cons, List.mem_singleton, List.not_mem_nil, or_false] at hkv
    rcases hkv with rfl | rfl
    · exact ⟨["a", "b"], rfl, by simp⟩
    · exact ⟨["c"], rfl, by simp⟩
  have hfree : samplePairs.Pairwise (fun a b => ∀ p q, keyPath a.1 = some p →
      keyPath b.1 = some q → ¬ StartsWith p q ∧ ¬ StartsWith q p) := by
    simp only [samplePairs, List.pairwise_cons, List.mem_singleton, List.not_mem_nil,
      forall_eq, keyPath, Option.some.injEq, false_implies, implies_true,
      List.Pairwise.nil, and_true]
    intro p q hp hq
    subst hp hq
    constructor
    · rintro ⟨r, hr⟩
      simp at hr
    · rintro ⟨r, hr⟩
      simp at hr
  exact ⟨hkeys, hfree, dict_nested_lookup samplePairs hkeys hfree⟩

/-! ## The models at sample inputs -/

theorem findAllString_sample :
    findAllString "see ABC-1 and ABC-1 again, also XYZ-2" = ["ABC-1", "ABC-1", "XYZ-2"] ∧
    findAllString "x-1y ab_cd-12-3 é-7 A-b-9-" = ["x-1", "cd-12", "b-9"] := by
  decide

theorem removeRepeats_sample :
    removeRepeats ["a", "b", "a", "c", "b"] = ["a", "b", "c"] := by
  decide

theorem fmtInt_sample : fmtInt (-5) = "-5" ∧ fmtInt 0 = "0" ∧ fmtInt 1234 = "1234" := by
  decide

theorem sortSlice_sample :
    sortSlice scopeLess ["Plugin", "Core", "Default", "Performance", "PDK"]
      = ["Performance", "Core", "PDK", "Plugin", "Default"] := by
  decide

theorem enrichedAll_sample :
    enrichedAll (sampleEnv sampleFiles (fun _ l => l)) sampleFiles
      = .ok [sampleEnriched "Plugin", sampleEnriched "Core", sampleEnriched "Unknown",
             sampleEnriched "Performance"] :=
  rfl

end Changelog
